import Mathlib

/-!
# rct `String` (src/rct/String.h): a shallow embedding and its properties

A `String` wraps a `std::string`; its content is modelled as the list of its
bytes (`Str`), each byte a natural number in `0..255`.  `size_t` values are
natural numbers below `2 ^ 64`; arithmetic that can wrap is written with an
explicit `% 2 ^ 64`.  Operations that can throw (`std::out_of_range` from
`at`/`substr`, `std::length_error` from `reserve`/`resize`) return
`Except Fault _`.  Loops are structural recursions on a fuel counter; running
out of fuel is the separate outcome `Fault.fuel`.  For every loop but one the
theorems show that the fuel supplied is enough; the loop of
`number(int64_t, 1)` is shown to exhaust any fuel on a negative value.
-/

namespace Rct

/-- Content of a `String`: the bytes of `mString`, without the terminator. -/
abbrev Str := List Nat

/-- The constant `String::npos` (`std::string::npos`, i.e. `size_t(-1)`). -/
def npos : Nat := 2 ^ 64 - 1

/-- An upper bound on `std::string::max_size()`: no implementation allows more
than `PTRDIFF_MAX` bytes.  Every live string has `size() ≤ max_size`. -/
def max_size : Nat := 2 ^ 63 - 1

/-- Abnormal outcomes of an operation. -/
inductive Fault where
  | out_of_range
  | length_error
  | assertion
  | undefined
  | fuel
  deriving DecidableEq, Repr

deriving instance DecidableEq for Except

/-- The enum `String::CaseSensitivity`. -/
inductive CaseSensitivity where
  | CaseSensitive
  | CaseInsensitive
  deriving DecidableEq, Repr

/-- The C library `tolower` in the "C" locale: only `A`..`Z` are mapped. -/
def tolower (c : Nat) : Nat := if 65 ≤ c ∧ c ≤ 90 then c + 32 else c

/-- Conversion `static_cast<int>(x)` of a `size_t` (two's complement, 32 bits). -/
def toInt32 (x : Nat) : Int :=
  if x % 2 ^ 32 < 2 ^ 31 then ((x % 2 ^ 32 : Nat) : Int) else ((x % 2 ^ 32 : Nat) : Int) - 2 ^ 32

/-- Subtraction of two `size_t` values (wraps modulo `2 ^ 64`). -/
def sub64 (a b : Nat) : Nat := (a + 2 ^ 64 - b % 2 ^ 64) % 2 ^ 64

/-! ## The `std::string` primitives the class delegates to -/

/-- Forward scan shared by `find(char)` and `find_first_not_of`: the position of
the first byte of `l` satisfying `p`, where the head of `l` is at position `i`. -/
def scanFwd (p : Nat → Bool) : Str → Nat → Nat
  | [], _ => npos
  | c :: cs, i => if p c then i else scanFwd p cs (i + 1)

/-- Backward scan shared by `rfind(char)` and `find_last_not_of`: the greatest
position below `n` whose byte satisfies `p`. -/
def scanBwd (p : Nat → Bool) (s : Str) : Nat → Nat
  | 0 => npos
  | n + 1 => if p (s.getD n 0) then n else scanBwd p s n

/-- Model of `std::string::find(char, pos)`. -/
def std_find_char (s : Str) (ch pos : Nat) : Nat :=
  scanFwd (fun c => c == ch) (s.drop pos) pos

/-- Model of `std::string::rfind(char, pos)`. -/
def std_rfind_char (s : Str) (ch pos : Nat) : Nat :=
  scanBwd (fun c => c == ch) s (min (pos + 1) s.length)

/-- Substring scan for `find(str, pos)`: the head of the list is at position `i`. -/
def scanSub (needle : Str) : Str → Nat → Nat
  | [], i => if needle = [] then i else npos
  | c :: cs, i => if needle.isPrefixOf (c :: cs) then i else scanSub needle cs (i + 1)

/-- Model of `std::string::find(const std::string&, pos)`. -/
def std_find (s needle : Str) (pos : Nat) : Nat :=
  if pos ≤ s.length then scanSub needle (s.drop pos) pos else npos

/-- Model of `std::string::find_first_not_of(set)` (from position 0). -/
def std_find_first_not_of (s set : Str) : Nat :=
  scanFwd (fun c => !set.contains c) s 0

/-- Model of `std::string::find_last_not_of(set)` (from the end). -/
def std_find_last_not_of (s set : Str) : Nat :=
  scanBwd (fun c => !set.contains c) s s.length

/-- Model of `std::string::substr(pos, n)`. -/
def std_substr (s : Str) (pos n : Nat) : Except Fault Str :=
  if pos ≤ s.length then .ok ((s.drop pos).take n) else .error .out_of_range

/-- Model of `std::string::resize(n)`: cut, or fill with zero bytes. -/
def std_resize (s : Str) (n : Nat) : Except Fault Str :=
  if n ≤ max_size then .ok (s.take n ++ List.replicate (n - s.length) 0)
  else .error .length_error

/-- Model of `std::string::reserve(n)`: the content is untouched, a request above
`max_size()` throws `std::length_error`. -/
def std_reserve (s : Str) (n : Nat) : Except Fault Str :=
  if n ≤ max_size then .ok s else .error .length_error

/-- Read of `c_str()[i]`: the content, then the terminator; beyond it the read
is outside the buffer. -/
def c_str_at (s : Str) (i : Nat) : Except Fault Nat :=
  if i < s.length then .ok (s.getD i 0)
  else if i = s.length then .ok 0
  else .error .undefined

/-! ## `String` members -/

/-- `String::size`. -/
def size (s : Str) : Nat := s.length

/-- `String::isEmpty`. -/
def isEmpty (s : Str) : Bool := s.isEmpty

/-- `String::at`, which is `std::string::at`: throws when `i ≥ size()`. -/
def charAt (s : Str) (i : Nat) : Except Fault Nat :=
  if i < s.length then .ok (s.getD i 0) else .error .out_of_range

/-- `String::first`. -/
def first (s : Str) : Except Fault Nat := charAt s 0

/-- `String::toLower`. -/
def toLower (s : Str) : Str := s.map tolower

/-- Loop of the case-insensitive `indexOf(char, ...)`; `ch` is already folded. -/
def indexOfCharLoop (s : Str) (ch : Nat) : Nat → Nat → Except Fault Nat
  | 0, _ => .error .fuel
  | fuel + 1, «from» =>
    if «from» < size s then
      if tolower (s.getD «from» 0) = ch then .ok «from»
      else indexOfCharLoop s ch fuel («from» + 1)
    else .ok npos

/-- `String::indexOf(char ch, size_t from, CaseSensitivity cs)`. -/
def indexOfChar (s : Str) (ch : Nat) («from» : Nat) (cs : CaseSensitivity) : Except Fault Nat :=
  if cs = .CaseSensitive then .ok (std_find_char s ch «from»)
  else indexOfCharLoop s (tolower ch) (size s - «from» + 1) «from»

/-- `String::contains(char ch, CaseSensitivity cs)`. -/
def containsChar (s : Str) (ch : Nat) (cs : CaseSensitivity) : Except Fault Bool := do
  let r ← indexOfChar s ch 0 cs
  pure (r != npos)

/-- `String::mid(size_t from, size_t l)`. -/
def mid (s : Str) («from» : Nat) (l : Nat) : Except Fault Str :=
  let l := if l = npos then sub64 (size s) «from» else l
  if «from» = 0 ∧ l = size s then .ok s
  else std_substr s «from» l

/-- Enumerator `String::NoSplitFlag`. -/
def NoSplitFlag : Nat := 0
/-- Enumerator `String::SkipEmpty`. -/
def SkipEmpty : Nat := 1
/-- Enumerator `String::KeepSeparators`. -/
def KeepSeparators : Nat := 2

/-- The `while (1)` loop of `String::split(char, unsigned)` together with the
statements after it; `last` and `ret` are the loop variables. -/
def splitLoop (s : Str) (ch flags add : Nat) : Nat → Nat → List Str → Except Fault (List Str)
  | 0, _, _ => .error .fuel
  | fuel + 1, last, ret => do
    let next ← indexOfChar s ch last .CaseSensitive
    if next = npos then
      if last < size s ∨ flags &&& SkipEmpty = 0 then
        let m ← mid s last npos
        pure (ret ++ [m])
      else pure ret
    else
      if next > last ∨ flags &&& SkipEmpty = 0 then
        let m ← mid s last ((sub64 next last + add) % 2 ^ 64)
        splitLoop s ch flags add fuel ((next + 1) % 2 ^ 64) (ret ++ [m])
      else
        splitLoop s ch flags add fuel ((next + 1) % 2 ^ 64) ret

/-- `String::split(char ch, unsigned int flags)`. -/
def split (s : Str) (ch flags : Nat) : Except Fault (List Str) :=
  let add := if flags &&& KeepSeparators ≠ 0 then 1 else 0
  splitLoop s ch flags add (size s + 2) 0 []

/-- The value of the local `size` of `String::join` when it is passed to
`reserve`: `max(0, count - 1) * sepSize` plus the element sizes, in `size_t`. -/
def joinReserveSize (list : List Str) (sep : Str) : Nat :=
  let sepSize := size sep
  let count := list.length
  let size0 := (max 0 (sub64 count 1) * sepSize) % 2 ^ 64
  (List.range count).foldl (fun acc i => (acc + size (list.getD i [])) % 2 ^ 64) size0

/-- `String::join(const List<String>&, const String &sep)`. -/
def join (list : List Str) (sep : Str) : Except Fault Str := do
  let sepSize := size sep
  let count := list.length
  let ret ← std_reserve [] (joinReserveSize list sep)
  pure ((List.range count).foldl
    (fun ret i =>
      let ret := ret ++ list.getD i []
      if sepSize ≠ 0 ∧ i + 1 < count then ret ++ sep else ret)
    ret)

/-- `String::join(const List<String>&, char ch)`. -/
def joinChar (list : List Str) (ch : Nat) : Except Fault Str := join list [ch]

/-- Loop of the case-insensitive `lastIndexOf(char, ...)`: `f` is the `int`
cursor, `ch` the folded byte, `«from»` the (adjusted) start position. -/
def lastIndexOfCharLoop (s : Str) (ch «from» : Nat) : Nat → Int → Except Fault Nat
  | 0, _ => .error .fuel
  | fuel + 1, f =>
    if f ≥ 0 then do
      let c ← c_str_at s f.toNat
      if tolower c = ch then .ok «from»
      else lastIndexOfCharLoop s ch «from» fuel (f - 1)
    else .ok npos

/-- `String::lastIndexOf(char ch, size_t from, CaseSensitivity cs)`. -/
def lastIndexOfChar (s : Str) (ch «from» : Nat) (cs : CaseSensitivity) : Except Fault Nat :=
  if cs = .CaseSensitive then .ok (std_rfind_char s ch «from»)
  else
    let «from» := if «from» = npos then sub64 (size s) 1 else «from»
    let ch := tolower ch
    let f := toInt32 «from»
    lastIndexOfCharLoop s ch «from» (f.toNat + 2) f

/-- The `while (idx > 0)` loop of `String::chomp`; the result is the final `idx`. -/
def chompLoop (s chars : Str) : Nat → Nat → Except Fault Nat
  | 0, _ => .error .fuel
  | fuel + 1, idx =>
    if idx > 0 then do
      let c ← charAt s (idx - 1)
      let member ← containsChar chars c .CaseSensitive
      if member then chompLoop s chars fuel (idx - 1)
      else .ok idx
    else .ok idx

/-- `String::chomp(const String &chars)`: the new content and the returned count. -/
def chomp (s chars : Str) : Except Fault (Str × Nat) := do
  let idx0 := sub64 (size s) 1
  let idx ← chompLoop s chars (idx0 + 1) idx0
  let ret := sub64 (sub64 (size s) idx) 1
  if ret ≠ 0 then
    let s ← std_resize s idx
    pure (s, ret)
  else pure (s, ret)

/-- `String::chomp(char ch)`. -/
def chompChar (s : Str) (ch : Nat) : Except Fault (Str × Nat) := chomp s [ch]

/-- The `for` loop of the case-insensitive `indexOf(const String&, ...)`. -/
def indexOfLoop (s lowered : Str) (count : Nat) : Nat → Nat → Nat → Except Fault Nat
  | 0, _, _ => .error .fuel
  | fuel + 1, i, matched =>
    if i < count then do
      let a ← charAt lowered matched
      let b ← charAt s i
      if a ≠ tolower b then
        indexOfLoop s lowered count fuel ((i + 1) % 2 ^ 64) 0
      else
        let matched := (matched + 1) % 2 ^ 64
        if matched = size lowered then .ok ((sub64 i matched + 1) % 2 ^ 64)
        else indexOfLoop s lowered count fuel ((i + 1) % 2 ^ 64) matched
    else .ok npos

/-- `String::indexOf(const String &ba, size_t from, CaseSensitivity cs)`. -/
def indexOf (s ba : Str) («from» : Nat) (cs : CaseSensitivity) : Except Fault Nat :=
  if isEmpty ba then .ok npos
  else if size ba = 1 then do
    let c ← first ba
    indexOfChar s c «from» cs
  else if cs = .CaseSensitive then .ok (std_find s ba «from»)
  else indexOfLoop s (toLower ba) (size s) (size s - «from» + 1) «from» 0

/-- The default argument of `trimmed`: the bytes of `" \f\n\r\t\v"`. -/
def defaultTrim : Str := [32, 12, 10, 13, 9, 11]

/-- `String::trimmed(const String &trim)`. -/
def trimmed (s trim : Str) : Except Fault Str :=
  let start := std_find_first_not_of s trim
  if start = npos then .ok []
  else
    let «end» := std_find_last_not_of s trim
    if «end» = npos then .error .assertion
    else mid s start ((sub64 «end» start + 1) % 2 ^ 64)

/-! ## Numeric parsing -/

/-- Values of `errno` after a conversion. -/
inductive Errno where
  | none
  | EINVAL
  | ERANGE
  deriving DecidableEq, Repr

/-- The C library `isspace` in the "C" locale. -/
def isspace (c : Nat) : Bool := decide (c = 32 ∨ (9 ≤ c ∧ c ≤ 13))

/-- Value of a byte read as a digit; 36 when it is no digit in any base. -/
def digitValue (c : Nat) : Nat :=
  if 48 ≤ c ∧ c ≤ 57 then c - 48
  else if 97 ≤ c ∧ c ≤ 122 then c - 87
  else if 65 ≤ c ∧ c ≤ 90 then c - 55
  else 36

/-- Whether the byte is a digit of the given base. -/
def isDigitIn (base c : Nat) : Bool := decide (digitValue c < base)

/-- What `strtoull` reports: the value, the offset `end - nptr`, and `errno`. -/
structure Strto where
  value : Nat
  endp : Nat
  errno : Errno
  deriving DecidableEq, Repr

/-- Length of the optional sign (`-` or `+`) at the head of `r`. -/
def signLen (r : Str) : Nat := if r.head? = some 45 ∨ r.head? = some 43 then 1 else 0

/-- Whether `r` starts with `0x` or `0X` followed by a hexadecimal digit, for a
base (0 or 16) that accepts the prefix. -/
def hasHexPrefix (b : Nat) (r : Str) : Bool :=
  decide ((b = 0 ∨ b = 16) ∧ r.head? = some 48
    ∧ (r.getD 1 0 = 120 ∨ r.getD 1 0 = 88) ∧ isDigitIn 16 (r.getD 2 0) = true)

/-- The base used for the digits: 16 after a `0x` prefix; for base 0, 8 after a
leading `0` and 10 otherwise. -/
def effectiveBase (b : Nat) (r : Str) : Nat :=
  if hasHexPrefix b r then 16
  else if b = 0 then (if r.head? = some 48 then 8 else 10)
  else b

/-- Conversion of the digits at the head of `r`, which starts `off` bytes into
the buffer: the longest run of digits of base `b`, read most significant first. -/
def convertDigits (einval neg : Bool) (b off : Nat) (r : Str) : Strto :=
  let ds := r.takeWhile (isDigitIn b)
  if ds = [] then ⟨0, 0, if einval then .EINVAL else .none⟩
  else
    let v := ds.foldl (fun acc c => acc * b + digitValue c) 0
    if v ≥ 2 ^ 64 then ⟨2 ^ 64 - 1, off + ds.length, .ERANGE⟩
    else ⟨if neg then (2 ^ 64 - v) % 2 ^ 64 else v, off + ds.length, .none⟩

/-- Model of the C library `strtoull(nptr, &end, base)` on the zero-terminated
buffer whose content is `s` (ISO C 7.22.1.4): leading white space, an optional
sign, an optional `0x` for base 16 or 0, then the longest run of digits of the
base.  A value above `ULLONG_MAX` gives `ULLONG_MAX` with `ERANGE`; a leading
`-` negates in the return type.  When no digit is found nothing is consumed;
`einval` tells whether the platform then sets `EINVAL` (BSD) or leaves `errno`
alone (glibc).  Reading stops at the first zero byte, which is no digit. -/
def strtoull (einval : Bool) (s : Str) (base : Nat) : Strto :=
  let b := toInt32 base
  if b < 0 ∨ b = 1 ∨ b > 36 then ⟨0, 0, .EINVAL⟩
  else
    let ws := s.takeWhile isspace
    let r1 := s.dropWhile isspace
    let r2 := r1.drop (signLen r1)
    let preLen := if hasHexPrefix b.toNat r2 then 2 else 0
    convertDigits einval (decide (r1.head? = some 45)) (effectiveBase b.toNat r2)
      (ws.length + signLen r1 + preLen) (r2.drop preLen)

/-- `String::toULongLong(bool *ok, size_t base)`: the returned value and the
value stored in `*ok`, which is `!errno && !*end`. -/
def toULongLong (einval : Bool) (s : Str) (base : Nat) : Nat × Bool :=
  let r := strtoull einval s base
  (r.value, decide (r.errno = .none) && decide (s.getD r.endp 0 = 0))

/-! ## Backward substring search -/

/-- Backward substring scan for `rfind(str, pos)`: the greatest position below
`k` at which `needle` starts. -/
def scanSubBwd (needle s : Str) : Nat → Nat
  | 0 => npos
  | k + 1 => if needle.isPrefixOf (s.drop k) then k else scanSubBwd needle s k

/-- Model of `std::string::rfind(const std::string&, pos)`. -/
def std_rfind (s needle : Str) (pos : Nat) : Nat :=
  if needle.length ≤ s.length then
    scanSubBwd needle s (min pos (s.length - needle.length) + 1)
  else npos

/-- The `while (f >= 0)` loop of the case-insensitive
`lastIndexOf(const String&, ...)`. -/
def lastIndexOfLoop (s lowered : Str) (needleSize : Nat) : Nat → Int → Nat → Except Fault Nat
  | 0, _, _ => .error .fuel
  | fuel + 1, f, matched =>
    if f ≥ 0 then do
      let a ← charAt lowered (sub64 (sub64 needleSize matched) 1)
      let b ← charAt s f.toNat
      if a ≠ tolower b then
        lastIndexOfLoop s lowered needleSize fuel (f - 1) 0
      else
        let matched := (matched + 1) % 2 ^ 64
        if matched = needleSize then .ok f.toNat
        else lastIndexOfLoop s lowered needleSize fuel (f - 1) matched
    else .ok npos

/-- `String::lastIndexOf(const String &ba, size_t from, CaseSensitivity cs)`. -/
def lastIndexOf (s ba : Str) («from» : Nat) (cs : CaseSensitivity) : Except Fault Nat :=
  if isEmpty ba then .ok npos
  else if size ba = 1 then do
    let c ← first ba
    lastIndexOfChar s c «from» cs
  else if cs = .CaseSensitive then .ok (std_rfind s ba «from»)
  else
    let «from» := if «from» = npos then sub64 (size s) 1 else «from»
    let f := toInt32 «from»
    lastIndexOfLoop s (toLower ba) (size (toLower ba)) (f.toNat + 2) f 0

/-! ## Padding -/

/-- The enum `String::Pad`. -/
inductive Pad where
  | Beginning
  | End
  deriving DecidableEq, Repr

/-- Constructor `String(size_t len, char fillChar)`, i.e. `std::string(len, c)`. -/
def fill (len fillChar : Nat) : Except Fault Str :=
  if len ≤ max_size then .ok (List.replicate len fillChar) else .error .length_error

/-- `String::left(size_t l)`. -/
def left (s : Str) (l : Nat) : Except Fault Str := std_substr s 0 l

/-- `String::right(size_t l)`. -/
def right (s : Str) (l : Nat) : Except Fault Str := std_substr s (sub64 (size s) l) l

/-- `String::prepend(const String &other)`, i.e. `mString.insert(0, other)`. -/
def prepend (s other : Str) : Except Fault Str :=
  if s.length + other.length ≤ max_size then .ok (other ++ s) else .error .length_error

/-- `String::append(const String &ba)`, i.e. `mString.append(ba)`. -/
def append (s ba : Str) : Except Fault Str :=
  if s.length + ba.length ≤ max_size then .ok (s ++ ba) else .error .length_error

/-- `String::padded(Pad pad, size_t size, char fillChar, bool truncate)`. -/
def padded (s : Str) (pad : Pad) (n fillChar : Nat) (truncate : Bool) : Except Fault Str :=
  let l := size s
  if l = n then .ok s
  else if l > n then
    if !truncate then .ok s
    else if pad = .Beginning then right s n
    else left s n
  else do
    let f ← fill (sub64 n l) fillChar
    if pad = .Beginning then prepend s f else append s f

/-! ## Number formatting -/

/-- What `snprintf` writes for an unsigned conversion (`%llu`, `%llx`, `%llo`):
the digits of `n` in the given base, lower-case. -/
def renderUnsigned (base n : Nat) : Str := (Nat.toDigits base n).map Char.toNat

/-- The `while (num)` loop of `number(uint64_t, 1)`. -/
def numberLoopU64 : Nat → Nat → Str → Except Fault Str
  | 0, _, _ => .error .fuel
  | fuel + 1, num, ret =>
    if num ≠ 0 then
      numberLoopU64 fuel (num >>> 1) (ret ++ [if num &&& 1 ≠ 0 then 49 else 48])
    else .ok ret

/-- `String::number(uint64_t num, size_t base)`; `num < 2 ^ 64`. -/
def numberU64 (num base : Nat) : Except Fault Str :=
  if base = 10 then .ok (renderUnsigned 10 num)
  else if base = 16 then .ok ([48, 120] ++ renderUnsigned 16 num)
  else if base = 8 then .ok (renderUnsigned 8 num)
  else if base = 1 then numberLoopU64 65 num []
  else .error .assertion

/-- The `while (num)` loop of `number(int64_t, 1)`: `num & 1` is the lowest bit
of the two's complement value and `num >>= 1` is the arithmetic shift. -/
def numberLoopI64 : Nat → Int → Str → Except Fault Str
  | 0, _, _ => .error .fuel
  | fuel + 1, num, ret =>
    if num ≠ 0 then
      numberLoopI64 fuel (num >>> 1) (ret ++ [if num % 2 ≠ 0 then 49 else 48])
    else .ok ret

/-- `String::number(int64_t num, size_t base)`; `-2 ^ 63 ≤ num < 2 ^ 63`.  The
loop of base 1 has no bound known in advance, so its fuel is a parameter. -/
def numberI64 (fuel : Nat) (num : Int) (base : Nat) : Except Fault Str :=
  if base = 10 then
    .ok (if num < 0 then 45 :: renderUnsigned 10 num.natAbs else renderUnsigned 10 num.natAbs)
  else if base = 16 then .ok ([48, 120] ++ renderUnsigned 16 (num % 2 ^ 64).toNat)
  else if base = 8 then .ok (renderUnsigned 8 (num % 2 ^ 64).toNat)
  else if base = 1 then numberLoopI64 fuel num []
  else .error .assertion

/-! ## Formatted construction -/

/-- Model of `vsnprintf(buf, cap, format, args)` for a template and arguments
whose full rendering is `rendering`: the bytes stored before the terminator
(at most `cap - 1` of them) and the returned `int`, which is the length of the
full rendering, or negative when that length is not an `int` value. -/
def vsnprintf (rendering : Str) (cap : Nat) : Str × Int :=
  (rendering.take (cap - 1),
    if rendering.length < 2 ^ 31 then (rendering.length : Int) else -1)

/-- `String::format<StaticBufSize>(const char *format, va_list args)`, for a
template and arguments whose full rendering is `rendering`. -/
def format (StaticBufSize : Nat) (rendering : Str) : Except Fault Str :=
  let first := vsnprintf rendering StaticBufSize
  let size := (first.2 % 2 ^ 64).toNat
  if size < StaticBufSize then .ok (first.1.take size)
  else do
    let ret ← std_resize [] size
    let second := vsnprintf rendering ((size + 1) % 2 ^ 64)
    pure (second.1 ++ ret.drop second.1.length)

/-! ## The 32-bit conversions -/

/-- Conversion of the digits at the head of `r` for `strtoul` on a platform
whose `unsigned long` has `bits` bits. -/
def convertUnsignedLong (einval neg : Bool) (bits b off : Nat) (r : Str) : Strto :=
  let ds := r.takeWhile (isDigitIn b)
  if ds = [] then ⟨0, 0, if einval then .EINVAL else .none⟩
  else
    let v := ds.foldl (fun acc c => acc * b + digitValue c) 0
    if v ≥ 2 ^ bits then ⟨2 ^ bits - 1, off + ds.length, .ERANGE⟩
    else ⟨if neg then (2 ^ bits - v) % 2 ^ bits else v, off + ds.length, .none⟩

/-- Model of the C library `strtoul(nptr, &end, base)`; `bits` is the width of
`unsigned long` (64 on LP64 platforms, 32 on ILP32 and LLP64 ones). -/
def strtoul (einval : Bool) (bits : Nat) (s : Str) (base : Nat) : Strto :=
  let b := toInt32 base
  if b < 0 ∨ b = 1 ∨ b > 36 then ⟨0, 0, .EINVAL⟩
  else
    let ws := s.takeWhile isspace
    let r1 := s.dropWhile isspace
    let r2 := r1.drop (signLen r1)
    let preLen := if hasHexPrefix b.toNat r2 then 2 else 0
    convertUnsignedLong einval (decide (r1.head? = some 45)) bits (effectiveBase b.toNat r2)
      (ws.length + signLen r1 + preLen) (r2.drop preLen)

/-- What `strtol` reports: the signed value, the offset `end - nptr`, `errno`. -/
structure StrtoSigned where
  value : Int
  endp : Nat
  errno : Errno
  deriving DecidableEq, Repr

/-- Conversion of the digits at the head of `r` for `strtol` on a platform
whose `long` has `bits` bits: out of range values give `LONG_MIN` or `LONG_MAX`
with `ERANGE`. -/
def convertLong (einval neg : Bool) (bits b off : Nat) (r : Str) : StrtoSigned :=
  let ds := r.takeWhile (isDigitIn b)
  if ds = [] then ⟨0, 0, if einval then .EINVAL else .none⟩
  else
    let v := ds.foldl (fun acc c => acc * b + digitValue c) 0
    if neg then
      if v > 2 ^ (bits - 1) then ⟨-(2 ^ (bits - 1) : Int), off + ds.length, .ERANGE⟩
      else ⟨-(v : Int), off + ds.length, .none⟩
    else
      if v ≥ 2 ^ (bits - 1) then ⟨(2 ^ (bits - 1) : Int) - 1, off + ds.length, .ERANGE⟩
      else ⟨(v : Int), off + ds.length, .none⟩

/-- Model of the C library `strtol(nptr, &end, base)`; `bits` is the width of
`long`. -/
def strtol (einval : Bool) (bits : Nat) (s : Str) (base : Nat) : StrtoSigned :=
  let b := toInt32 base
  if b < 0 ∨ b = 1 ∨ b > 36 then ⟨0, 0, .EINVAL⟩
  else
    let ws := s.takeWhile isspace
    let r1 := s.dropWhile isspace
    let r2 := r1.drop (signLen r1)
    let preLen := if hasHexPrefix b.toNat r2 then 2 else 0
    convertLong einval (decide (r1.head? = some 45)) bits (effectiveBase b.toNat r2)
      (ws.length + signLen r1 + preLen) (r2.drop preLen)

/-- `String::toULong(bool *ok, size_t base)`: the `unsigned long` result of
`strtoul` is narrowed to `uint32_t`; `*ok` is `!errno && !*end`. -/
def toULong (einval : Bool) (bits : Nat) (s : Str) (base : Nat) : Nat × Bool :=
  let r := strtoul einval bits s base
  (r.value % 2 ^ 32, decide (r.errno = .none) && decide (s.getD r.endp 0 = 0))

/-- `String::toLong(bool *ok, size_t base)`: the `long` result of `strtol` is
narrowed to `int32_t`; `*ok` is `!errno && !*end`. -/
def toLong (einval : Bool) (bits : Nat) (s : Str) (base : Nat) : Int × Bool :=
  let r := strtol einval bits s base
  (toInt32 (r.value % 2 ^ 64).toNat, decide (r.errno = .none) && decide (s.getD r.endp 0 = 0))

/-! ## Reference functions used to state the properties -/

/-- The maximal runs of `l` between occurrences of the byte `d`, in order. -/
def segments (d : Nat) : Str → List Str
  | [] => [[]]
  | c :: cs =>
    if c = d then [] :: segments d cs
    else match segments d cs with
      | [] => [[c]]
      | p :: ps => (c :: p) :: ps

/-- What `split` emits for a list of segments: a segment that is not the last
gets the first `add` bytes of `[d]` appended, and an empty segment is emitted
only when `keepEmpty` holds. -/
def emit (keepEmpty : Bool) (add d : Nat) : List Str → List Str
  | [] => []
  | [p] => if p ≠ [] ∨ keepEmpty then [p] else []
  | p :: q :: r =>
    (if p ≠ [] ∨ keepEmpty then [p ++ [d].take add] else []) ++ emit keepEmpty add d (q :: r)

/-- The elements of `l` written one after the other with `sep` between each two
neighbours and nowhere else. -/
def glue (sep : Str) : List Str → Str
  | [] => []
  | [x] => x
  | x :: y :: r => x ++ sep ++ glue sep (y :: r)

/-- Every element of `l` followed by `sep`. -/
def glueAll (sep : Str) : List Str → Str
  | [] => []
  | x :: r => x ++ sep ++ glueAll sep r

/-- Sum of the sizes of the elements of a list of strings. -/
def sumSizes : List Str → Nat
  | [] => 0
  | x :: r => x.length + sumSizes r

/-- The number written by a run of decimal digit bytes, most significant first. -/
def decimalValue (ds : Str) : Nat := Nat.ofDigits 10 ((ds.map (fun c => c - 48)).reverse)

/-! ## Auxiliary facts -/

theorem npos_eq : npos = 18446744073709551615 := by decide

theorem max_size_eq : max_size = 9223372036854775807 := by decide

theorem sub64_of_le {a b : Nat} (h : b ≤ a) (ha : a < 2 ^ 64) : sub64 a b = a - b := by
  unfold sub64
  have hb : b % 2 ^ 64 = b := Nat.mod_eq_of_lt (by omega)
  rw [hb]
  have : a + 2 ^ 64 - b = (a - b) + 2 ^ 64 := by omega
  rw [this, Nat.add_mod_right]
  exact Nat.mod_eq_of_lt (by omega)

theorem scanFwd_none (p : Nat → Bool) (l : Str) (i : Nat) (h : ∀ c ∈ l, p c = false) :
    scanFwd p l i = npos := by
  induction l generalizing i with
  | nil => rfl
  | cons c cs ih =>
    have hc : p c = false := h c (by simp)
    simp only [scanFwd, hc]
    exact ih _ (fun x hx => h x (by simp [hx]))

theorem scanFwd_first (p : Nat → Bool) (pre post : Str) (x i : Nat)
    (h : ∀ c ∈ pre, p c = false) (hx : p x = true) :
    scanFwd p (pre ++ x :: post) i = i + pre.length := by
  induction pre generalizing i with
  | nil => simp [scanFwd, hx]
  | cons c cs ih =>
    have hc : p c = false := h c (by simp)
    have ih2 := ih (i + 1) (fun y hy => h y (by simp [hy]))
    rw [List.cons_append, scanFwd, hc, ih2]
    simp only [Bool.false_eq_true, if_false, List.length_cons]
    omega

theorem first_occurrence (d : Nat) (l : Str) :
    d ∉ l ∨ ∃ pre post, l = pre ++ d :: post ∧ d ∉ pre := by
  induction l with
  | nil => left; simp
  | cons c cs ih =>
    by_cases hc : c = d
    · right; exact ⟨[], cs, by simp [hc], by simp⟩
    · rcases ih with h | ⟨pre, post, h1, h2⟩
      · left
        simp only [List.mem_cons, not_or]
        exact ⟨fun e => hc e.symm, h⟩
      · right
        refine ⟨c :: pre, post, by simp [h1], ?_⟩
        simp only [List.mem_cons, not_or]
        exact ⟨fun e => hc e.symm, h2⟩

theorem segments_ne_nil (d : Nat) (l : Str) : segments d l ≠ [] := by
  induction l with
  | nil => simp [segments]
  | cons c cs ih =>
    unfold segments
    split
    · simp
    · split <;> simp

theorem segments_not_mem (d : Nat) (l : Str) (h : d ∉ l) : segments d l = [l] := by
  induction l with
  | nil => rfl
  | cons c cs ih =>
    simp only [List.mem_cons, not_or] at h
    have hc : ¬ c = d := fun e => h.1 e.symm
    simp [segments, hc, ih h.2]

theorem segments_first (d : Nat) (pre post : Str) (h : d ∉ pre) :
    segments d (pre ++ d :: post) = pre :: segments d post := by
  induction pre with
  | nil => simp [segments]
  | cons c cs ih =>
    simp only [List.mem_cons, not_or] at h
    have hc : ¬ c = d := fun e => h.1 e.symm
    simp [segments, hc, ih h.2]

theorem emit_cons (k : Bool) (add d : Nat) (p : Str) (rest : List Str) (h : rest ≠ []) :
    emit k add d (p :: rest)
      = (if p ≠ [] ∨ k then [p ++ [d].take add] else []) ++ emit k add d rest := by
  cases rest with
  | nil => exact absurd rfl h
  | cons q r => rfl

theorem mid_eq (s : Str) (f l : Nat) (hf : f ≤ s.length) (hl : l ≠ npos) :
    mid s f l = .ok ((s.drop f).take l) := by
  unfold mid std_substr size
  simp only [hl, if_false, hf, if_true]
  split
  · rename_i h
    obtain ⟨h1, h2⟩ := h
    subst h1
    simp [h2]
  · rfl

theorem mid_npos (s : Str) (f : Nat) (hf : f ≤ s.length) (hs : s.length ≤ max_size) :
    mid s f npos = .ok (s.drop f) := by
  unfold mid std_substr size
  have h64 : sub64 s.length f = s.length - f :=
    sub64_of_le hf (by rw [max_size_eq] at hs; omega)
  simp only [if_true, h64, hf]
  split
  · rename_i h
    obtain ⟨h1, _⟩ := h
    subst h1
    simp
  · congr 1
    apply List.take_of_length_le
    simp

theorem splitLoop_eq (s : Str) (ch flags add : Nat) (hadd : add ≤ 1) (hs : s.length ≤ max_size) :
    ∀ (fuel last : Nat) (ret : List Str), last ≤ s.length → s.length - last + 1 ≤ fuel →
      splitLoop s ch flags add fuel last ret
        = .ok (ret ++ emit (decide (flags &&& SkipEmpty = 0)) add ch (segments ch (s.drop last))) := by
  intro fuel
  induction fuel with
  | zero => intro last ret _ h; omega
  | succ n ih =>
    intro last ret hlast hfuel
    have hsz : s.length < 2 ^ 63 := by rw [max_size_eq] at hs; omega
    rw [splitLoop]
    rcases first_occurrence ch (s.drop last) with hno | ⟨pre, post, hsplit, hpre⟩
    · have hfind : std_find_char s ch last = npos := by
        apply scanFwd_none
        intro c hc
        simp only [beq_eq_false_iff_ne, ne_eq]
        rintro rfl
        exact hno hc
      rw [segments_not_mem _ _ hno]
      simp only [indexOfChar, if_true, hfind, bind, Except.bind, pure, Except.pure, emit, size]
      rw [mid_npos s last hlast hs]
      have hiff : last < s.length ↔ s.drop last ≠ [] := by
        simp [List.drop_eq_nil_iff]
      by_cases hk : flags &&& SkipEmpty = 0
      · simp [hk]
      · by_cases hl : last < s.length
        · simp [hk, hl, hiff.mp hl]
        · have : s.drop last = [] := by
            by_contra hne
            exact hl (hiff.mpr hne)
          simp [hk, hl, this]
    · have hlen : s.length - last = pre.length + 1 + post.length := by
        have := congrArg List.length hsplit
        simp only [List.length_drop, List.length_append, List.length_cons] at this
        omega
      have hfind : std_find_char s ch last = last + pre.length := by
        unfold std_find_char
        rw [hsplit]
        apply scanFwd_first
        · intro c hc
          simp only [beq_eq_false_iff_ne, ne_eq]
          rintro rfl
          exact hpre hc
        · simp
      have hne : last + pre.length ≠ npos := by rw [npos_eq]; omega
      have hsub : (sub64 (last + pre.length) last + add) % 2 ^ 64 = pre.length + add := by
        rw [sub64_of_le (by omega) (by omega)]
        have : last + pre.length - last = pre.length := by omega
        rw [this]
        exact Nat.mod_eq_of_lt (by omega)
      have hnext1 : (last + pre.length + 1) % 2 ^ 64 = last + pre.length + 1 :=
        Nat.mod_eq_of_lt (by omega)
      have hmid : mid s last (pre.length + add) = .ok (pre ++ [ch].take add) := by
        rw [mid_eq s last _ hlast (by rw [npos_eq]; omega), hsplit, List.take_append]
        have hadd2 : add = 0 ∨ add = 1 := by omega
        rcases hadd2 with h0 | h1
        · simp [h0]
        · simp [h1]
      have hdrop : s.drop (last + pre.length + 1) = post := by
        have h1 : s.drop (last + pre.length + 1) = (s.drop last).drop (pre.length + 1) := by
          rw [List.drop_drop]
          congr 1
        rw [h1, hsplit]
        have h2 : pre ++ ch :: post = (pre ++ [ch]) ++ post := by simp
        rw [h2]
        have h3 : pre.length + 1 = (pre ++ [ch]).length := by simp
        rw [h3, List.drop_left]
      have hgt : last + pre.length > last ↔ pre ≠ [] := by
        rw [← List.length_pos]
        omega
      rw [hsplit, segments_first _ _ _ hpre, emit_cons _ _ _ _ _ (segments_ne_nil _ _)]
      simp only [indexOfChar, if_true, hfind, bind, Except.bind, hne, if_false, hsub, hnext1,
        hmid, size]
      by_cases hc : last + pre.length > last ∨ flags &&& SkipEmpty = 0
      · rw [if_pos hc]
        rw [ih (last + pre.length + 1) _ (by omega) (by omega), hdrop]
        have hc2 : pre ≠ [] ∨ decide (flags &&& SkipEmpty = 0) = true := by
          rcases hc with h | h
          · exact Or.inl (hgt.mp h)
          · exact Or.inr (by simp [h])
        rw [if_pos hc2]
        simp
      · rw [if_neg hc]
        rw [ih (last + pre.length + 1) _ (by omega) (by omega), hdrop]
        have hc2 : ¬ (pre ≠ [] ∨ decide (flags &&& SkipEmpty = 0) = true) := by
          rintro (h | h)
          · exact hc (Or.inl (hgt.mpr h))
          · exact hc (Or.inr (by simpa using h))
        rw [if_neg hc2]
        simp

theorem glueAll_append (sep : Str) (l : List Str) (x : Str) :
    glueAll sep (l ++ [x]) = glueAll sep l ++ x ++ sep := by
  induction l with
  | nil => simp [glueAll]
  | cons a r ih => simp [glueAll, ih]

theorem glue_append_singleton (sep : Str) (l : List Str) (x : Str) :
    glue sep (l ++ [x]) = glueAll sep l ++ x := by
  induction l with
  | nil => simp [glue, glueAll]
  | cons a r ih =>
    cases r with
    | nil => simp [glue, glueAll]
    | cons b r2 =>
      have : glue sep (a :: b :: r2 ++ [x]) = a ++ sep ++ glue sep (b :: r2 ++ [x]) := rfl
      rw [this, ih]
      simp [glueAll]

theorem sumSizes_append (l : List Str) (x : Str) :
    sumSizes (l ++ [x]) = sumSizes l + x.length := by
  induction l with
  | nil => simp [sumSizes]
  | cons a r ih => simp [sumSizes, ih]; omega

theorem length_glueAll (sep : Str) (l : List Str) :
    (glueAll sep l).length = l.length * sep.length + sumSizes l := by
  induction l with
  | nil => simp [glueAll, sumSizes]
  | cons a r ih =>
    simp only [glueAll, sumSizes, List.length_append, List.length_cons, ih]
    rw [Nat.add_mul]
    omega

theorem take_succ_eq (L : List Str) (k : Nat) (hk : k < L.length) :
    L.take (k + 1) = L.take k ++ [L.getD k []] := by
  rw [List.take_succ, List.getD_eq_getElem _ _ hk, List.getElem?_eq_getElem hk]
  rfl

theorem join_size_loop (L : List Str) (a : Nat) (ha : a < 2 ^ 64) :
    ∀ k, k ≤ L.length →
      (List.range k).foldl (fun acc i => (acc + size (L.getD i [])) % 2 ^ 64) a
        = (a + sumSizes (L.take k)) % 2 ^ 64 := by
  intro k
  induction k with
  | zero =>
    intro _
    simp only [List.range_zero, List.foldl_nil, List.take_zero, sumSizes, Nat.add_zero]
    exact (Nat.mod_eq_of_lt ha).symm
  | succ k ih =>
    intro hk
    rw [List.range_succ, List.foldl_append, ih (by omega), take_succ_eq L k (by omega),
      sumSizes_append]
    simp only [List.foldl_cons, List.foldl_nil, size]
    rw [Nat.mod_add_mod, Nat.add_assoc]

theorem join_append_loop (L : List Str) (sep : Str) :
    ∀ k, k < L.length →
      (List.range k).foldl
        (fun ret i =>
          let ret := ret ++ L.getD i []
          if size sep ≠ 0 ∧ i + 1 < L.length then ret ++ sep else ret) []
        = glueAll sep (L.take k) := by
  intro k
  induction k with
  | zero => intro _; simp [glueAll]
  | succ k ih =>
    intro hk
    rw [List.range_succ, List.foldl_append, ih (by omega), take_succ_eq L k (by omega),
      glueAll_append]
    simp only [List.foldl_cons, List.foldl_nil, size]
    by_cases h0 : sep.length = 0
    · have : sep = [] := List.length_eq_zero.mp h0
      simp [this]
    · simp [h0, hk]

theorem join_of_ne_nil (L : List Str) (sep : Str) (hne : L ≠ []) (hcount : L.length < 2 ^ 64)
    (hfit : (glue sep L).length ≤ max_size) : join L sep = .ok (glue sep L) := by
  obtain ⟨init, x, rfl⟩ : ∃ init x, L = init ++ [x] :=
    ⟨L.dropLast, L.getLast hne, (List.dropLast_append_getLast hne).symm⟩
  have hlen : (init ++ [x]).length = init.length + 1 := by simp
  have htake : (init ++ [x]).take init.length = init := List.take_left _ _
  have hsize0 : (max 0 (sub64 (init ++ [x]).length 1) * size sep) % 2 ^ 64
      < 2 ^ 64 := Nat.mod_lt _ (by norm_num)
  have hglue : (glue sep (init ++ [x])).length
      = init.length * sep.length + sumSizes (init ++ [x]) := by
    rw [glue_append_singleton, List.length_append, length_glueAll, sumSizes_append]
    omega
  have hsub : sub64 (init ++ [x]).length 1 = init.length := by
    rw [sub64_of_le (by omega) hcount, hlen]
    omega
  have htotal : (List.range (init ++ [x]).length).foldl
      (fun acc i => (acc + size ((init ++ [x]).getD i [])) % 2 ^ 64)
      ((max 0 (sub64 (init ++ [x]).length 1) * size sep) % 2 ^ 64)
      = (glue sep (init ++ [x])).length := by
    rw [join_size_loop _ _ hsize0 _ (le_refl _), List.take_length, hsub, Nat.zero_max,
      Nat.mod_add_mod, hglue]
    apply Nat.mod_eq_of_lt
    have := hglue ▸ hfit
    rw [max_size_eq] at this
    simp only [size]
    omega
  have hloop : (List.range (init ++ [x]).length).foldl
      (fun ret i =>
        let ret := ret ++ (init ++ [x]).getD i []
        if size sep ≠ 0 ∧ i + 1 < (init ++ [x]).length then ret ++ sep else ret) []
      = glue sep (init ++ [x]) := by
    rw [hlen, List.range_succ, List.foldl_append, ← hlen,
      join_append_loop (init ++ [x]) sep init.length (by omega), htake,
      glue_append_singleton]
    simp only [List.foldl_cons, List.foldl_nil]
    have hx : (init ++ [x]).getD init.length [] = x := by
      rw [List.getD_append_right _ _ _ _ (le_refl _)]
      simp
    simp [hx]
  unfold join joinReserveSize
  simp only [htotal, std_reserve, hfit, if_true, bind, Except.bind, pure, Except.pure, hloop]

theorem glue_cons_cons (sep : Str) (c : Nat) (p : Str) (ps : List Str) :
    glue sep ((c :: p) :: ps) = c :: glue sep (p :: ps) := by
  cases ps with
  | nil => rfl
  | cons q r => simp [glue]

theorem glue_segments (d : Nat) (s : Str) : glue [d] (segments d s) = s := by
  induction s with
  | nil => rfl
  | cons c cs ih =>
    unfold segments
    by_cases hc : c = d
    · rw [if_pos hc]
      obtain ⟨q, r, hq⟩ := List.exists_cons_of_ne_nil (segments_ne_nil d cs)
      rw [hq] at ih ⊢
      simp [glue, ih, hc]
    · rw [if_neg hc]
      obtain ⟨q, r, hq⟩ := List.exists_cons_of_ne_nil (segments_ne_nil d cs)
      rw [hq] at ih ⊢
      simp only
      rw [glue_cons_cons, ih]

theorem length_segments_le (d : Nat) (s : Str) : (segments d s).length ≤ s.length + 1 := by
  induction s with
  | nil => simp [segments]
  | cons c cs ih =>
    unfold segments
    by_cases hc : c = d
    · rw [if_pos hc]
      simp only [List.length_cons]
      omega
    · rw [if_neg hc]
      obtain ⟨q, r, hq⟩ := List.exists_cons_of_ne_nil (segments_ne_nil d cs)
      rw [hq] at ih ⊢
      simp only [List.length_cons] at ih ⊢
      omega

theorem emit_keep (d : Nat) (L : List Str) : emit true 0 d L = L := by
  induction L with
  | nil => rfl
  | cons p r ih =>
    cases r with
    | nil => simp [emit]
    | cons q r2 =>
      rw [emit_cons _ _ _ _ _ (by simp), ih]
      simp

theorem emit_skip (d : Nat) (L : List Str) :
    emit false 0 d L = L.filter (fun e => decide (e ≠ [])) := by
  induction L with
  | nil => rfl
  | cons p r ih =>
    cases r with
    | nil =>
      by_cases hp : p = []
      · simp [emit, hp]
      · simp [emit, hp]
    | cons q r2 =>
      rw [emit_cons _ _ _ _ _ (by simp), ih]
      by_cases hp : p = []
      · simp [hp]
      · simp [hp, List.filter_cons]

theorem split_noflag (s : Str) (d : Nat) (hs : s.length ≤ max_size) :
    split s d NoSplitFlag = .ok (segments d s) := by
  have h := splitLoop_eq s d NoSplitFlag 0 (by omega) hs (size s + 2) 0 [] (by omega)
    (by simp only [size]; omega)
  have hk : decide (NoSplitFlag &&& SkipEmpty = 0) = true := by decide
  rw [hk, emit_keep] at h
  simpa [split, NoSplitFlag, KeepSeparators] using h

theorem split_skipEmpty (s : Str) (d : Nat) (hs : s.length ≤ max_size) :
    split s d SkipEmpty = .ok ((segments d s).filter (fun e => decide (e ≠ []))) := by
  have h := splitLoop_eq s d SkipEmpty 0 (by omega) hs (size s + 2) 0 [] (by omega)
    (by simp only [size]; omega)
  have hk : decide (SkipEmpty &&& SkipEmpty = 0) = false := by decide
  rw [hk, emit_skip] at h
  simpa [split, SkipEmpty, KeepSeparators] using h

theorem scanFwd_cases (p : Nat → Bool) (l : Str) (i : Nat) :
    (scanFwd p l i = npos ∧ ∀ c ∈ l, p c = false)
    ∨ ∃ m, m < l.length ∧ scanFwd p l i = i + m ∧ p (l.getD m 0) = true
        ∧ ∀ j, j < m → p (l.getD j 0) = false := by
  induction l generalizing i with
  | nil => left; exact ⟨rfl, by simp⟩
  | cons c cs ih =>
    by_cases hc : p c = true
    · right
      exact ⟨0, by simp, by simp [scanFwd, hc], by simpa using hc, by intro j hj; omega⟩
    · have hc2 : p c = false := by simpa using hc
      rcases ih (i + 1) with ⟨h1, h2⟩ | ⟨m, hm, h1, h2, h3⟩
      · left
        refine ⟨?_, ?_⟩
        · rw [scanFwd, hc2]
          simpa using h1
        · intro x hx
          rcases List.mem_cons.mp hx with rfl | h
          · exact hc2
          · exact h2 x h
      · right
        refine ⟨m + 1, by simp only [List.length_cons]; omega, ?_, by simpa using h2, ?_⟩
        · rw [scanFwd, hc2]
          simp only [Bool.false_eq_true, if_false]
          rw [h1]
          omega
        · intro j hj
          cases j with
          | zero => simpa using hc2
          | succ j =>
            simp only [List.getD_cons_succ]
            exact h3 j (by omega)

theorem scanBwd_cases (p : Nat → Bool) (s : Str) (n : Nat) :
    (scanBwd p s n = npos ∧ ∀ j, j < n → p (s.getD j 0) = false)
    ∨ ∃ m, m < n ∧ scanBwd p s n = m ∧ p (s.getD m 0) = true
        ∧ ∀ j, m < j → j < n → p (s.getD j 0) = false := by
  induction n with
  | zero => left; exact ⟨rfl, by intro j hj; omega⟩
  | succ n ih =>
    by_cases hc : p (s.getD n 0) = true
    · right
      exact ⟨n, by omega, by rw [scanBwd, if_pos hc], hc, by intro j h1 h2; omega⟩
    · have hc2 : p (s.getD n 0) = false := by simpa using hc
      rcases ih with ⟨h1, h2⟩ | ⟨m, hm, h1, h2, h3⟩
      · left
        refine ⟨?_, ?_⟩
        · rw [scanBwd, hc2]
          simpa using h1
        · intro j hj
          by_cases hjn : j = n
          · rw [hjn]; exact hc2
          · exact h2 j (by omega)
      · right
        refine ⟨m, by omega, ?_, h2, ?_⟩
        · rw [scanBwd, hc2]
          simpa using h1
        · intro j hj1 hj2
          by_cases hjn : j = n
          · rw [hjn]; exact hc2
          · exact h3 j hj1 (by omega)

theorem getD_take_drop (s : Str) (a n i : Nat) (hi : i < n) :
    ((s.drop a).take n).getD i 0 = s.getD (a + i) 0 := by
  rw [List.getD_eq_getElem?_getD, List.getD_eq_getElem?_getD, List.getElem?_take_of_lt hi,
    List.getElem?_drop]

theorem trimmed_cases (s t : Str) (hs : s.length ≤ max_size) :
    (trimmed s t = .ok [] ∧ ∀ c ∈ s, t.contains c = true)
    ∨ ∃ a b, a ≤ b ∧ b < s.length ∧ trimmed s t = .ok ((s.drop a).take (b - a + 1))
        ∧ t.contains (s.getD a 0) = false ∧ t.contains (s.getD b 0) = false
        ∧ (∀ j, j < a → t.contains (s.getD j 0) = true)
        ∧ (∀ j, b < j → j < s.length → t.contains (s.getD j 0) = true) := by
  have hsz : s.length < 2 ^ 63 := by rw [max_size_eq] at hs; omega
  rcases scanFwd_cases (fun c => !t.contains c) s 0 with ⟨h1, h2⟩ | ⟨a, ha, h1, h2, h3⟩
  · left
    refine ⟨?_, ?_⟩
    · simp only [trimmed, std_find_first_not_of, h1, if_true]
    · intro c hc
      simpa using h2 c hc
  · right
    rcases scanBwd_cases (fun c => !t.contains c) s s.length with ⟨_, g2⟩ | ⟨b, hb, g1, g2, g3⟩
    · have := g2 a ha
      rw [h2] at this
      exact absurd this (by simp)
    · have hab : a ≤ b := by
        by_contra hlt
        have := g3 a (by omega) ha
        rw [h2] at this
        exact absurd this (by simp)
      refine ⟨a, b, hab, hb, ?_, by simpa using h2, by simpa using g2, ?_, ?_⟩
      · have hstart : std_find_first_not_of s t = a := by
          simp only [std_find_first_not_of, h1, Nat.zero_add]
        have hend : std_find_last_not_of s t = b := by
          simp only [std_find_last_not_of, g1]
        have hl : (sub64 b a + 1) % 2 ^ 64 = b - a + 1 := by
          rw [sub64_of_le hab (by omega)]
          exact Nat.mod_eq_of_lt (by omega)
        have ha2 : a ≠ npos := by rw [npos_eq]; omega
        have hb2 : b ≠ npos := by rw [npos_eq]; omega
        simp only [trimmed, hstart, hend, ha2, hb2, if_false, hl]
        exact mid_eq s a _ (by omega) (by rw [npos_eq]; omega)
      · intro j hj
        simpa using h3 j hj
      · intro j hj1 hj2
        simpa using g3 j hj1 hj2

theorem trimmed_fixed (r t : Str) (hr : r.length ≤ max_size) (hne : r ≠ [])
    (h0 : t.contains (r.getD 0 0) = false)
    (hl : t.contains (r.getD (r.length - 1) 0) = false) : trimmed r t = .ok r := by
  have hsz : r.length < 2 ^ 63 := by rw [max_size_eq] at hr; omega
  obtain ⟨x, tl, rfl⟩ := List.exists_cons_of_ne_nil hne
  have hstart : std_find_first_not_of (x :: tl) t = 0 := by
    simp only [List.getD_cons_zero] at h0
    have hp : (fun c => !t.contains c) x = true := by
      show (!t.contains x) = true
      rw [h0]
      rfl
    rw [std_find_first_not_of, scanFwd, if_pos hp]
  have hend : std_find_last_not_of (x :: tl) t = tl.length := by
    simp only [List.length_cons, Nat.add_sub_cancel] at hl
    have hp : (fun c => !t.contains c) ((x :: tl).getD tl.length 0) = true := by
      show (!t.contains ((x :: tl).getD tl.length 0)) = true
      rw [hl]
      rfl
    rw [std_find_last_not_of, List.length_cons, scanBwd, if_pos hp]
  simp only [List.length_cons] at hsz
  have hlen : (sub64 tl.length 0 + 1) % 2 ^ 64 = tl.length + 1 := by
    rw [sub64_of_le (Nat.zero_le _) (by omega)]
    exact Nat.mod_eq_of_lt (by omega)
  have h1 : (0 : Nat) ≠ npos := by decide
  have h2 : tl.length ≠ npos := by rw [npos_eq]; omega
  have h3 : tl.length + 1 ≠ npos := by rw [npos_eq]; omega
  simp only [trimmed, hstart, hend, if_false, h1, h2, hlen]
  simp [mid, h3, size]

theorem trimmed_nil (t : Str) : trimmed [] t = .ok [] := by
  simp only [trimmed, std_find_first_not_of, scanFwd, if_true]

theorem toInt32_ten : toInt32 10 = 10 := by decide

theorem isDigitIn_ten (c : Nat) : isDigitIn 10 c = true ↔ 48 ≤ c ∧ c ≤ 57 := by
  unfold isDigitIn digitValue
  simp only [decide_eq_true_eq]
  split_ifs <;> omega

theorem digitValue_of_digit (c : Nat) (h : 48 ≤ c ∧ c ≤ 57) : digitValue c = c - 48 := by
  unfold digitValue
  rw [if_pos h]

theorem foldl_digits (ds : Str) (hd : ∀ c ∈ ds, 48 ≤ c ∧ c ≤ 57) (acc : Nat) :
    ds.foldl (fun acc c => acc * 10 + digitValue c) acc
      = acc * 10 ^ ds.length + decimalValue ds := by
  induction ds generalizing acc with
  | nil => simp [decimalValue]
  | cons c cs ih =>
    have hc := hd c (by simp)
    have hcs : ∀ x ∈ cs, 48 ≤ x ∧ x ≤ 57 := fun x hx => hd x (by simp [hx])
    rw [List.foldl_cons, ih hcs, digitValue_of_digit c hc]
    simp only [decimalValue, List.map_cons, List.reverse_cons, Nat.ofDigits_append,
      List.length_reverse, List.length_map, Nat.ofDigits_singleton, List.length_cons]
    ring

theorem strtoull_ten (einval : Bool) (s : Str) :
    strtoull einval s 10
      = convertDigits einval (decide ((s.dropWhile isspace).head? = some 45)) 10
          ((s.takeWhile isspace).length + signLen (s.dropWhile isspace))
          ((s.dropWhile isspace).drop (signLen (s.dropWhile isspace))) := by
  have hb : ¬ ((10 : Int) < 0 ∨ (10 : Int) = 1 ∨ (10 : Int) > 36) := by decide
  have hhex : ∀ r, hasHexPrefix 10 r = false := by
    intro r
    simp [hasHexPrefix]
  have heff : ∀ r, effectiveBase 10 r = 10 := by
    intro r
    simp [effectiveBase, hhex]
  have hnat : (10 : Int).toNat = 10 := rfl
  simp only [strtoull, toInt32_ten, hb, if_false, hnat, hhex, heff, Bool.false_eq_true,
    Nat.add_zero, List.drop_zero]

theorem sign_cases (r : Str) :
    (signLen r = 0 ∧ r.head? ≠ some 45 ∧ r.take (signLen r) = [])
    ∨ (signLen r = 1 ∧ r.head? = some 45 ∧ r.take (signLen r) = [45])
    ∨ (signLen r = 1 ∧ r.head? ≠ some 45 ∧ r.take (signLen r) = [43]) := by
  cases r with
  | nil => left; simp [signLen]
  | cons c cs =>
    by_cases h45 : c = 45
    · right; left
      simp [signLen, h45]
    · by_cases h43 : c = 43
      · right; right
        simp [signLen, h43]
      · left
        simp [signLen, h45, h43]

theorem getD_eq_zero_iff (s : Str) (hnul : ∀ c ∈ s, c ≠ 0) (e : Nat) :
    s.getD e 0 = 0 ↔ s.length ≤ e := by
  constructor
  · intro h
    by_contra hlt
    have hlt2 : e < s.length := by omega
    rw [List.getD_eq_getElem _ _ hlt2] at h
    exact hnul _ (List.getElem_mem hlt2) h
  · intro h
    exact List.getD_eq_default _ _ h

theorem toULongLong_ten (einval : Bool) (s : Str) (hne : s ≠ []) (hnul : ∀ c ∈ s, c ≠ 0) :
    ((toULongLong einval s 10).2 = true
      ↔ ((strtoull einval s 10).endp = s.length ∧ (strtoull einval s 10).errno ≠ .ERANGE))
    ∧ ((toULongLong einval s 10).2 = true →
        ∃ ws sg ds, s = ws ++ sg ++ ds ∧ (∀ c ∈ ws, isspace c = true)
          ∧ (sg = [] ∨ sg = [43] ∨ sg = [45]) ∧ ds ≠ [] ∧ (∀ c ∈ ds, 48 ≤ c ∧ c ≤ 57)
          ∧ decimalValue ds < 2 ^ 64
          ∧ (toULongLong einval s 10).1
              = if sg = [45] then (2 ^ 64 - decimalValue ds) % 2 ^ 64 else decimalValue ds) := by
  have h1 : s.takeWhile isspace ++ s.dropWhile isspace = s := List.takeWhile_append_dropWhile _ _
  have h2 : (s.dropWhile isspace).take (signLen (s.dropWhile isspace))
      ++ (s.dropWhile isspace).drop (signLen (s.dropWhile isspace)) = s.dropWhile isspace :=
    List.take_append_drop _ _
  have h3 : ((s.dropWhile isspace).drop (signLen (s.dropWhile isspace))).takeWhile (isDigitIn 10)
      ++ ((s.dropWhile isspace).drop (signLen (s.dropWhile isspace))).dropWhile (isDigitIn 10)
      = (s.dropWhile isspace).drop (signLen (s.dropWhile isspace)) :=
    List.takeWhile_append_dropWhile _ _
  have hws : ∀ c ∈ s.takeWhile isspace, isspace c = true := fun c hc => List.mem_takeWhile_imp hc
  simp only [toULongLong, strtoull_ten, convertDigits]
  generalize s.takeWhile isspace = ws at h1 hws ⊢
  generalize s.dropWhile isspace = r1 at h1 h2 h3 ⊢
  have hsign := sign_cases r1
  generalize hsl : signLen r1 = sl at h2 h3 hsign ⊢
  generalize r1.take sl = sg at h2 hsign
  generalize r1.drop sl = r2 at h2 h3 ⊢
  have hds : ∀ c ∈ r2.takeWhile (isDigitIn 10), 48 ≤ c ∧ c ≤ 57 :=
    fun c hc => (isDigitIn_ten c).mp (List.mem_takeWhile_imp hc)
  generalize r2.takeWhile (isDigitIn 10) = ds at h3 hds ⊢
  generalize r2.dropWhile (isDigitIn 10) = rest at h3
  have hsglen : sg.length = sl := by
    rcases hsign with ⟨a, _, c⟩ | ⟨a, _, c⟩ | ⟨a, _, c⟩ <;> simp [a, c]
  have hlen : s.length = ws.length + sl + ds.length + rest.length := by
    rw [← h1, ← h2, ← h3]
    simp only [List.length_append, hsglen]
    omega
  have hz := getD_eq_zero_iff s hnul
  by_cases hnil : ds = []
  · have hs0 : 0 < s.length := List.length_pos.mpr hne
    have : ¬ s.getD 0 0 = 0 := by rw [hz]; omega
    simp only [hnil, if_true]
    refine ⟨?_, ?_⟩
    · simp only [Bool.and_eq_true, decide_eq_true_eq, this, and_false, false_iff, not_and]
      intro h
      omega
    · simp only [Bool.and_eq_true, decide_eq_true_eq, this, and_false, false_implies]
  · simp only [hnil, if_false]
    rw [foldl_digits ds hds 0]
    simp only [Nat.zero_mul, Nat.zero_add]
    by_cases hov : decimalValue ds ≥ 2 ^ 64
    · simp only [hov, if_true]
      simp
    · simp only [hov, if_false]
      have hend : s.getD (ws.length + sl + ds.length) 0 = 0 ↔ rest = [] := by
        rw [hz, hlen, ← List.length_eq_zero]
        omega
      have hend2 : ws.length + sl + ds.length = s.length ↔ rest = [] := by
        rw [hlen, ← List.length_eq_zero]
        omega
      refine ⟨?_, ?_⟩
      · simp only [Bool.and_eq_true, decide_eq_true_eq, hend, hend2]
        simp
      · simp only [Bool.and_eq_true, decide_eq_true_eq, hend]
        rintro ⟨_, hrest⟩
        refine ⟨ws, sg, ds, ?_, hws, ?_, hnil, hds, by omega, ?_⟩
        · rw [← h1, ← h2, ← h3, hrest]
          simp
        · rcases hsign with ⟨_, _, c⟩ | ⟨_, _, c⟩ | ⟨_, _, c⟩
          · exact Or.inl c
          · exact Or.inr (Or.inr c)
          · exact Or.inr (Or.inl c)
        · rcases hsign with ⟨_, b, c⟩ | ⟨_, b, c⟩ | ⟨_, b, c⟩
          · simp [b, c]
          · simp [b, c]
          · simp [b, c]

/-! ## Segmentation: `split` and `join` -/

/-- C1: for every byte string `s` and every delimiter byte `d`,
`s.split(d, NoSplitFlag)` returns a list, and `join` of that list with `d`
returns `s` exactly.  The bound on the length is the one every `std::string`
satisfies. -/
theorem split_join_roundtrip (s : Str) (d : Nat) (hs : s.length ≤ max_size) :
    ∃ L, split s d NoSplitFlag = .ok L ∧ joinChar L d = .ok s := by
  refine ⟨segments d s, split_noflag s d hs, ?_⟩
  have hg := glue_segments d s
  have hcount : (segments d s).length < 2 ^ 64 := by
    have := length_segments_le d s
    rw [max_size_eq] at hs
    omega
  unfold joinChar
  rw [join_of_ne_nil _ _ (segments_ne_nil d s) hcount (by rw [hg]; exact hs), hg]

/-- Instance of `split_join_roundtrip`: the string `",a,,b,"` split and joined on `','`. -/
theorem split_join_roundtrip_witness :
    ([44, 97, 44, 44, 98, 44] : Str).length ≤ max_size
    ∧ ∃ L, split [44, 97, 44, 44, 98, 44] 44 NoSplitFlag = .ok L
        ∧ joinChar L 44 = .ok [44, 97, 44, 44, 98, 44] :=
  ⟨by decide, split_join_roundtrip [44, 97, 44, 44, 98, 44] 44 (by decide)⟩

/-- C8: for every string `s` and delimiter byte `d`, `s.split(d, SkipEmpty)` is
`s.split(d, NoSplitFlag)` with the zero-length elements removed, order kept; no
element of the `SkipEmpty` result is empty; and `"a,,b"` gives `["a","b"]` with
`SkipEmpty` and `["a","","b"]` without. -/
theorem split_skipEmpty_filter (s : Str) (d : Nat) (hs : s.length ≤ max_size) :
    (∃ L, split s d NoSplitFlag = .ok L
        ∧ split s d SkipEmpty = .ok (L.filter (fun e => decide (e ≠ [])))
        ∧ ∀ e ∈ L.filter (fun e => decide (e ≠ [])), e ≠ [])
    ∧ split [97, 44, 44, 98] 44 SkipEmpty = .ok [[97], [98]]
    ∧ split [97, 44, 44, 98] 44 NoSplitFlag = .ok [[97], [], [98]] := by
  refine ⟨⟨segments d s, split_noflag s d hs, split_skipEmpty s d hs, ?_⟩, by decide, by decide⟩
  intro e he
  have := (List.mem_filter.mp he).2
  simpa using this

/-- Instance of `split_skipEmpty_filter`: the string `",a,,b,"` split on `','`. -/
theorem split_skipEmpty_filter_witness :
    ([44, 97, 44, 44, 98, 44] : Str).length ≤ max_size
    ∧ ∃ L, split [44, 97, 44, 44, 98, 44] 44 NoSplitFlag = .ok L
        ∧ split [44, 97, 44, 44, 98, 44] 44 SkipEmpty = .ok (L.filter (fun e => decide (e ≠ [])))
        ∧ ∀ e ∈ L.filter (fun e => decide (e ≠ [])), e ≠ [] :=
  ⟨by decide, (split_skipEmpty_filter [44, 97, 44, 44, 98, 44] 44 (by decide)).1⟩

/-- C9: `join` of the empty list with the one-byte separator `","` does not
return the empty concatenation: the size passed to `reserve` is
`(0 - 1) * 1 = 2 ^ 64 - 1`, above `max_size()`, and `reserve` throws. -/
theorem join_empty_list_nonempty_sep :
    join [] [44] = .error .length_error ∧ glue [44] [] = [] ∧ join [] [] = .ok [] := by
  decide

/-! ## Search -/

/-- C2: with haystack `"aab"`, needle `"ab"` and `from = 0` the case-insensitive
`indexOf` returns `npos`, although the needle occurs at position 1 (where the
case-sensitive search of the same call finds it). -/
theorem indexOf_caseInsensitive_misses :
    indexOf [97, 97, 98] [97, 98] 0 .CaseInsensitive = .ok npos
    ∧ (([97, 97, 98] : Str).drop 1).take 2 = [97, 98]
    ∧ indexOf [97, 97, 98] [97, 98] 0 .CaseSensitive = .ok 1 := by
  decide

/-- C3: with `h = "ab"`, `ch = 'a'` and `from = 1` the case-insensitive
`lastIndexOf(char)` returns `from` (1), a position whose byte does not match,
instead of the matching position 0 that its scan reached (and that the
case-sensitive call returns); the same happens with `from = npos`. -/
theorem lastIndexOfChar_returns_from :
    lastIndexOfChar [97, 98] 97 1 .CaseInsensitive = .ok 1
    ∧ lastIndexOfChar [97, 98] 97 npos .CaseInsensitive = .ok 1
    ∧ tolower (([97, 98] : Str).getD 1 0) ≠ tolower 97
    ∧ tolower (([97, 98] : Str).getD 0 0) = tolower 97
    ∧ lastIndexOfChar [97, 98] 97 1 .CaseSensitive = .ok 0 := by
  decide

/-- C4: `chomp` with `charSet = "\n"` cuts `"a\nb"`, whose last byte is no
member, down to `"a"`, and leaves `"ab\n"`, whose last byte is a member,
unchanged: the last byte is never examined. -/
theorem chomp_ignores_last_byte :
    chomp [97, 10, 98] [10] = .ok ([97], 1)
    ∧ chomp [97, 98, 10] [10] = .ok ([97, 98, 10], 0) := by
  decide

/-- C5: `chomp` with `charSet = "\n"` on `"a\nb"` returns 1 while the string
shrinks by 2 bytes (from 3 to 1). -/
theorem chomp_count_off_by_one :
    (chomp [97, 10, 98] [10]).map (fun r => (r.1.length, r.2)) = .ok (1, 1)
    ∧ ([97, 10, 98] : Str).length - 1 = 2 := by
  decide

/-- C6: `chomp` with `charSet = "\n"` empties the non-empty strings `"\n\n"`
and `"\n\nb"`, returning 1 and 2 as the count. -/
theorem chomp_removes_whole_string :
    chomp [10, 10] [10] = .ok ([], 1) ∧ chomp [10, 10, 98] [10] = .ok ([], 2) := by
  decide

/-! ## Shape transforms -/

/-- C10: `trimmed` is idempotent: for every string `s` and every trim set `t`,
`s.trimmed(t)` returns a string `r` and `r.trimmed(t)` returns `r` again. -/
theorem trimmed_idempotent (s t : Str) (hs : s.length ≤ max_size) :
    ∃ r, trimmed s t = .ok r ∧ trimmed r t = .ok r := by
  rcases trimmed_cases s t hs with ⟨h1, _⟩ | ⟨a, b, hab, hb, h1, ha0, hb0, _, _⟩
  · exact ⟨[], h1, trimmed_nil t⟩
  · refine ⟨_, h1, ?_⟩
    have hlen : ((s.drop a).take (b - a + 1)).length = b - a + 1 := by
      rw [List.length_take, List.length_drop]
      omega
    apply trimmed_fixed
    · rw [hlen, max_size_eq]
      rw [max_size_eq] at hs
      omega
    · intro h
      rw [h] at hlen
      simp at hlen
    · rw [getD_take_drop s a _ 0 (by omega)]
      exact ha0
    · rw [hlen, getD_take_drop s a _ _ (by omega)]
      have : a + (b - a + 1 - 1) = b := by omega
      rw [this]
      exact hb0

/-- Instance of `trimmed_idempotent`: `" a b\n"` with the default trim set. -/
theorem trimmed_idempotent_witness :
    ([32, 97, 32, 98, 10] : Str).length ≤ max_size
    ∧ ∃ r, trimmed [32, 97, 32, 98, 10] defaultTrim = .ok r ∧ trimmed r defaultTrim = .ok r :=
  ⟨by decide, trimmed_idempotent [32, 97, 32, 98, 10] defaultTrim (by decide)⟩

/-! ## Numeric parsing -/

theorem decimalValue_one : decimalValue [49] = 1 := by
  simp [decimalValue]

/-- C7, as stated, fails on three kinds of input, on both kinds of platform.
An embedded zero byte: for the five bytes `"12\0ab"` the flag is set although
the conversion stopped after two bytes.  A minus sign: for `"-1"` the flag is
set, all bytes are consumed and nothing overflows, but the value returned is
`2 ^ 64 - 1`, not the number `-1` the string denotes.  The empty string: it has
no digit, yet where `errno` is left alone the flag is set and 0 is returned,
and where `EINVAL` is set the flag is cleared although all (zero) bytes were
consumed and nothing overflowed. -/
theorem toULongLong_claim_fails :
    (toULongLong false [49, 50, 0, 97, 98] 10 = (12, true)
      ∧ toULongLong true [49, 50, 0, 97, 98] 10 = (12, true)
      ∧ (strtoull false [49, 50, 0, 97, 98] 10).endp = 2
      ∧ ¬ ((toULongLong false [49, 50, 0, 97, 98] 10).2 = true
          ↔ ((strtoull false [49, 50, 0, 97, 98] 10).endp = size [49, 50, 0, 97, 98]
              ∧ (strtoull false [49, 50, 0, 97, 98] 10).errno ≠ .ERANGE)))
    ∧ (toULongLong false [45, 49] 10 = (2 ^ 64 - 1, true)
      ∧ toULongLong true [45, 49] 10 = (2 ^ 64 - 1, true)
      ∧ (strtoull false [45, 49] 10).endp = size [45, 49]
      ∧ (strtoull false [45, 49] 10).errno ≠ .ERANGE
      ∧ ((toULongLong false [45, 49] 10).1 : Int) ≠ -(decimalValue [49] : Int))
    ∧ (toULongLong false [] 10 = (0, true)
      ∧ (¬ ∃ ws sg ds, ([] : Str) = ws ++ sg ++ ds ∧ ds ≠ [])
      ∧ toULongLong true [] 10 = (0, false)
      ∧ ¬ ((toULongLong true [] 10).2 = true
          ↔ ((strtoull true [] 10).endp = size []
              ∧ (strtoull true [] 10).errno ≠ .ERANGE))) := by
  refine ⟨by decide, ⟨by decide, by decide, by decide, by decide, ?_⟩,
    ⟨by decide, ?_, by decide, by decide⟩⟩
  · rw [decimalValue_one]
    decide
  · rintro ⟨ws, sg, ds, h, hds⟩
    have hlen := congrArg List.length h
    simp only [List.length_nil, List.length_append] at hlen
    exact hds (List.length_eq_zero.mp (by omega))

/-- C7, amended: for every non-empty byte string `s` without a zero byte, in
base 10, the flag is set exactly when the conversion consumed all `size()`
bytes and did not overflow; in that case `s` is white space, an optional sign
and at least one decimal digit, the digits denote a number below `2 ^ 64`, and
that number is returned, negated modulo `2 ^ 64` when the sign is `-` (as
`strtoull` negates in its return type).  `"123"` gives `true` and 123,
`"123abc"` gives `false`.  Strings with a zero byte and the empty string are
outside this statement; the preceding theorem shows what happens there. -/
theorem toULongLong_base10 (einval : Bool) (s : Str) (hne : s ≠ []) (hnul : ∀ c ∈ s, c ≠ 0) :
    ((toULongLong einval s 10).2 = true
      ↔ ((strtoull einval s 10).endp = size s ∧ (strtoull einval s 10).errno ≠ .ERANGE))
    ∧ ((toULongLong einval s 10).2 = true →
        ∃ ws sg ds, s = ws ++ sg ++ ds ∧ (∀ c ∈ ws, isspace c = true)
          ∧ (sg = [] ∨ sg = [43] ∨ sg = [45]) ∧ ds ≠ [] ∧ (∀ c ∈ ds, 48 ≤ c ∧ c ≤ 57)
          ∧ decimalValue ds < 2 ^ 64
          ∧ (toULongLong einval s 10).1
              = if sg = [45] then (2 ^ 64 - decimalValue ds) % 2 ^ 64 else decimalValue ds)
    ∧ toULongLong einval [49, 50, 51] 10 = (123, true)
    ∧ (toULongLong einval [49, 50, 51, 97, 98, 99] 10).2 = false := by
  refine ⟨(toULongLong_ten einval s hne hnul).1, (toULongLong_ten einval s hne hnul).2, ?_, ?_⟩
  · cases einval <;> decide
  · cases einval <;> decide

/-- Instance of `toULongLong_base10`: the string `" -42"` on a glibc platform. -/
theorem toULongLong_base10_witness :
    ([32, 45, 52, 50] : Str) ≠ [] ∧ (∀ c ∈ ([32, 45, 52, 50] : Str), c ≠ 0)
    ∧ ((toULongLong false [32, 45, 52, 50] 10).2 = true
      ↔ ((strtoull false [32, 45, 52, 50] 10).endp = size [32, 45, 52, 50]
          ∧ (strtoull false [32, 45, 52, 50] 10).errno ≠ .ERANGE)) :=
  ⟨by decide, by decide, (toULongLong_base10 false [32, 45, 52, 50] (by decide) (by decide)).1⟩

/-! ## Shape transforms, continued -/

theorem mem_take_getD (s : Str) (a c : Nat) (h : c ∈ s.take a) :
    ∃ j, j < a ∧ j < s.length ∧ s.getD j 0 = c := by
  obtain ⟨i, hi, hc⟩ := List.mem_take_iff_getElem.mp h
  have hi1 : i < a := lt_of_lt_of_le hi (Nat.min_le_left _ _)
  have hi2 : i < s.length := lt_of_lt_of_le hi (Nat.min_le_right _ _)
  exact ⟨i, hi1, hi2, by rw [List.getD_eq_getElem _ _ hi2]; exact hc⟩

theorem mem_drop_getD (s : Str) (k c : Nat) (h : c ∈ s.drop k) :
    ∃ j, k ≤ j ∧ j < s.length ∧ s.getD j 0 = c := by
  obtain ⟨i, hi, hc⟩ := List.mem_drop_iff_getElem.mp h
  have hi2 : k + i < s.length := by omega
  exact ⟨k + i, by omega, hi2, by rw [List.getD_eq_getElem _ _ hi2]; exact hc⟩

theorem contains_true_iff (t : Str) (c : Nat) : t.contains c = true ↔ c ∈ t := by
  simp

theorem contains_false_iff (t : Str) (c : Nat) : t.contains c = false ↔ c ∉ t := by
  simp

/-- C11: for every string `s` and trim set `t`, `s.trimmed(t)` returns the
middle part `r` of a decomposition `s = pre ++ r ++ post` in which every byte
of `pre` and of `post` belongs to `t` and the first and the last byte of `r`
(when `r` is not empty) do not; `r` is the empty string when every byte of `s`
belongs to `t`. -/
theorem trimmed_is_inner_slice (s t : Str) (hs : s.length ≤ max_size) :
    ∃ pre r post, s = pre ++ r ++ post ∧ trimmed s t = .ok r
      ∧ (∀ c ∈ pre, c ∈ t) ∧ (∀ c ∈ post, c ∈ t)
      ∧ (∀ x, r.head? = some x → x ∉ t) ∧ (∀ x, r.getLast? = some x → x ∉ t)
      ∧ ((∀ c ∈ s, c ∈ t) → r = []) := by
  rcases trimmed_cases s t hs with ⟨h1, h2⟩ | ⟨a, b, hab, hb, h1, ha0, hb0, hpre, hpost⟩
  · refine ⟨s, [], [], by simp, h1, ?_, by simp, by simp, by simp, fun _ => rfl⟩
    intro c hc
    exact (contains_true_iff t c).mp (h2 c hc)
  · have hlen : ((s.drop a).take (b - a + 1)).length = b - a + 1 := by
      rw [List.length_take, List.length_drop]
      omega
    have hhead : ((s.drop a).take (b - a + 1)).getD 0 0 = s.getD a 0 :=
      getD_take_drop s a _ 0 (by omega)
    have hlast : ((s.drop a).take (b - a + 1)).getD (b - a) 0 = s.getD b 0 := by
      rw [getD_take_drop s a _ _ (by omega)]
      congr 1
      omega
    refine ⟨s.take a, (s.drop a).take (b - a + 1), (s.drop a).drop (b - a + 1), ?_, h1,
      ?_, ?_, ?_, ?_, ?_⟩
    · rw [List.append_assoc, List.take_append_drop, List.take_append_drop]
    · intro c hc
      obtain ⟨j, hj, _, hjc⟩ := mem_take_getD s a c hc
      rw [← hjc]
      exact (contains_true_iff t _).mp (hpre j hj)
    · intro c hc
      rw [List.drop_drop] at hc
      obtain ⟨j, hj, hj2, hjc⟩ := mem_drop_getD s _ c hc
      rw [← hjc]
      exact (contains_true_iff t _).mp (hpost j (by omega) hj2)
    · intro x hx
      rw [List.head?_eq_getElem?] at hx
      rw [List.getD_eq_getElem?_getD, hx] at hhead
      simp only [Option.getD_some] at hhead
      rw [hhead]
      exact (contains_false_iff t _).mp ha0
    · intro x hx
      rw [List.getLast?_eq_getElem?, hlen, Nat.add_sub_cancel] at hx
      rw [List.getD_eq_getElem?_getD, hx] at hlast
      simp only [Option.getD_some] at hlast
      rw [hlast]
      exact (contains_false_iff t _).mp hb0
    · intro hall
      have hmem : s.getD a 0 ∈ s := by
        rw [List.getD_eq_getElem _ _ (by omega : a < s.length)]
        exact List.getElem_mem _
      exact absurd (hall _ hmem) ((contains_false_iff t _).mp ha0)

/-- Instance of `trimmed_is_inner_slice`: `" a b\n"` with the default trim set. -/
theorem trimmed_is_inner_slice_witness :
    ([32, 97, 32, 98, 10] : Str).length ≤ max_size
    ∧ ∃ pre r post, ([32, 97, 32, 98, 10] : Str) = pre ++ r ++ post
      ∧ trimmed [32, 97, 32, 98, 10] defaultTrim = .ok r
      ∧ (∀ c ∈ pre, c ∈ defaultTrim) ∧ (∀ c ∈ post, c ∈ defaultTrim)
      ∧ (∀ x, r.head? = some x → x ∉ defaultTrim)
      ∧ (∀ x, r.getLast? = some x → x ∉ defaultTrim)
      ∧ ((∀ c ∈ ([32, 97, 32, 98, 10] : Str), c ∈ defaultTrim) → r = []) :=
  ⟨by decide, trimmed_is_inner_slice [32, 97, 32, 98, 10] defaultTrim (by decide)⟩

/-- C12: for a string `s` of length `l` and a target size `n` (both sizes a
string can have), `padded(side, n, c, truncate)` returns `s` when `l = n` or
when `l > n` without `truncate`; the rightmost (`Beginning`) or leftmost (`End`)
`n` bytes of `s` when `l > n` with `truncate`; and `n - l` copies of `c` before
(`Beginning`) or after (`End`) `s` when `l < n`.  `"7"` gives `"007"` and
`"ab"` gives `"abxx"`. -/
theorem padded_spec (s : Str) (pad : Pad) (n c : Nat) (truncate : Bool)
    (hs : s.length ≤ max_size) (hn : n ≤ max_size) :
    padded s pad n c truncate = .ok
      (if s.length = n then s
       else if n < s.length then
         (if truncate = false then s
          else if pad = .Beginning then s.drop (s.length - n) else s.take n)
       else
         (if pad = .Beginning then List.replicate (n - s.length) c ++ s
          else s ++ List.replicate (n - s.length) c))
    ∧ padded [55] .Beginning 3 48 false = .ok [48, 48, 55]
    ∧ padded [97, 98] .End 4 120 false = .ok [97, 98, 120, 120] := by
  refine ⟨?_, by decide, by decide⟩
  have hs2 : s.length < 2 ^ 63 := by rw [max_size_eq] at hs; omega
  have hn2 : n < 2 ^ 63 := by rw [max_size_eq] at hn; omega
  unfold padded
  simp only [size]
  by_cases h1 : s.length = n
  · simp only [h1, if_true]
  · simp only [h1, if_false]
    by_cases h2 : n < s.length
    · have h2b : s.length > n := h2
      simp only [h2, h2b, if_true]
      cases truncate with
      | false => simp
      | true =>
        simp only [Bool.not_true, Bool.false_eq_true, if_false]
        by_cases h3 : pad = .Beginning
        · simp only [h3, if_true]
          unfold right std_substr
          simp only [size]
          rw [sub64_of_le (by omega) (by omega)]
          rw [if_pos (by omega)]
          congr 1
          apply List.take_of_length_le
          rw [List.length_drop]
          omega
        · simp only [h3, if_false]
          unfold left std_substr
          simp
    · have h2b : ¬ s.length > n := h2
      simp only [h2, h2b, if_false]
      have hsub : sub64 n s.length = n - s.length := sub64_of_le (by omega) (by omega)
      have hfill : fill (sub64 n s.length) c = .ok (List.replicate (n - s.length) c) := by
        unfold fill
        rw [hsub, if_pos (by rw [max_size_eq]; omega)]
      simp only [hfill, bind, Except.bind]
      have hfit : s.length + (List.replicate (n - s.length) c).length ≤ max_size := by
        rw [List.length_replicate, max_size_eq]
        omega
      by_cases h3 : pad = .Beginning
      · simp only [h3, if_true, prepend, hfit]
      · simp only [h3, if_false, append, hfit, if_true]

/-- Instance of `padded_spec`: `"abc"` truncated to its rightmost two bytes. -/
theorem padded_spec_witness :
    ([97, 98, 99] : Str).length ≤ max_size ∧ 2 ≤ max_size
    ∧ padded [97, 98, 99] .Beginning 2 120 true = .ok [98, 99] :=
  ⟨by decide, by decide, (padded_spec [97, 98, 99] .Beginning 2 120 true (by decide) (by decide)).1⟩

/-! ## Number formatting -/

theorem size_half (n : Nat) (h : n ≠ 0) : n.size = (n / 2).size + 1 := by
  have hb : Nat.bit n.bodd n.div2 ≠ 0 := by rw [Nat.bit_decomp]; exact h
  have := Nat.size_bit hb
  rw [Nat.bit_decomp, Nat.div2_val] at this
  exact this

theorem numberLoopU64_eq :
    ∀ (fuel num : Nat) (ret : Str), num.size < fuel →
      ∃ r, numberLoopU64 fuel num ret = .ok (ret ++ r) ∧ r.length = num.size
        ∧ ∀ k, k < r.length → r.getD k 0 = if num.testBit k then 49 else 48 := by
  intro fuel
  induction fuel with
  | zero => intro num ret h; omega
  | succ n ih =>
    intro num ret hfuel
    rw [numberLoopU64]
    by_cases h0 : num = 0
    · subst h0
      exact ⟨[], by simp, by simp, by intro k hk; simp at hk⟩
    · have hsz := size_half num h0
      have hshift : num >>> 1 = num / 2 := by
        rw [Nat.shiftRight_eq_div_pow, Nat.pow_one]
      obtain ⟨r, hr1, hr2, hr3⟩ :=
        ih (num / 2) (ret ++ [if num &&& 1 ≠ 0 then 49 else 48]) (by omega)
      refine ⟨(if num &&& 1 ≠ 0 then 49 else 48) :: r, ?_, ?_, ?_⟩
      · rw [if_pos h0, hshift, hr1]
        simp
      · simp only [List.length_cons, hr2, hsz]
      · intro k hk
        cases k with
        | zero =>
          simp only [List.getD_cons_zero, Nat.testBit_zero, Nat.and_one_is_mod]
          by_cases hm : num % 2 = 1
          · simp [hm]
          · have : num % 2 = 0 := by omega
            simp [this]
        | succ k =>
          simp only [List.getD_cons_succ, Nat.testBit_succ]
          exact hr3 k (by simpa using hk)

/-- C13: for every unsigned 64-bit value `v`, `number(v, 1)` returns the binary
expansion of `v` least significant bit first and without padding: a string
whose length is the bit length of `v` (empty for 0) and whose `k`-th byte is
`'1'` when bit `k` of `v` is set and `'0'` otherwise; 6 gives `"011"` and 5
gives `"101"`. -/
theorem numberU64_binary (v : Nat) (hv : v < 2 ^ 64) :
    (∃ r, numberU64 v 1 = .ok r ∧ r.length = v.size
      ∧ ∀ k, k < r.length → r.getD k 0 = if v.testBit k then 49 else 48)
    ∧ numberU64 0 1 = .ok []
    ∧ numberU64 6 1 = .ok [48, 49, 49]
    ∧ numberU64 5 1 = .ok [49, 48, 49] := by
  refine ⟨?_, by decide, by decide, by decide⟩
  have hsize : v.size < 65 := by
    have : v.size ≤ 64 := Nat.size_le.mpr hv
    omega
  obtain ⟨r, h1, h2, h3⟩ := numberLoopU64_eq 65 v [] hsize
  refine ⟨r, ?_, h2, h3⟩
  have hb : numberU64 v 1 = numberLoopU64 65 v [] := by
    simp [numberU64]
  rw [hb, h1]
  simp

/-- Instance of `numberU64_binary`: the value 6. -/
theorem numberU64_binary_witness :
    6 < 2 ^ 64 ∧ ∃ r, numberU64 6 1 = .ok r ∧ r.length = Nat.size 6
      ∧ ∀ k, k < r.length → r.getD k 0 = if Nat.testBit 6 k then 49 else 48 :=
  ⟨by decide, (numberU64_binary 6 (by decide)).1⟩

theorem numberLoopI64_negative (v : Int) (hv : v < 0) :
    ∀ (fuel : Nat) (ret : Str), numberLoopI64 fuel v ret = .error .fuel := by
  intro fuel
  induction fuel generalizing v with
  | zero => intro ret; rfl
  | succ n ih =>
    intro ret
    rw [numberLoopI64, if_pos (by omega)]
    apply ih
    cases v with
    | ofNat k => exact absurd hv (by simp)
    | negSucc k => exact Int.negSucc_lt_zero _

/-- C18: for the signed value `-1`, the loop of `number(int64_t, 1)` never
reaches zero: the arithmetic shift gives `-1 >> 1 = -1`, so whatever the number
of iterations allowed, the loop is still running when they are used up. -/
theorem numberI64_negative_diverges :
    ∀ (fuel : Nat) (ret : Str),
      numberLoopI64 fuel (-1) ret = .error .fuel ∧ numberI64 fuel (-1) 1 = .error .fuel := by
  have hloop : ∀ (fuel : Nat) (ret : Str), numberLoopI64 fuel (-1) ret = .error .fuel := by
    intro fuel
    induction fuel with
    | zero => intro ret; rfl
    | succ n ih =>
      intro ret
      rw [numberLoopI64]
      have h1 : ((-1 : Int) ≠ 0) := by decide
      have h2 : ((-1 : Int) >>> 1) = -1 := by decide
      rw [if_pos h1, h2]
      exact ih _
  intro fuel ret
  refine ⟨hloop fuel ret, ?_⟩
  have hb : numberI64 fuel (-1) 1 = numberLoopI64 fuel (-1) [] := by
    simp [numberI64]
  rw [hb]
  exact hloop fuel []

/-! ## Search, continued -/

/-- C14: with haystack `"abb"` and needle `"ab"` the case-insensitive
`lastIndexOf` from `npos` returns `npos`, although the needle occurs at
position 0 (where the case-sensitive search of the same call finds it). -/
theorem lastIndexOf_caseInsensitive_misses :
    lastIndexOf [97, 98, 98] [97, 98] npos .CaseInsensitive = .ok npos
    ∧ ([97, 98, 98] : Str).take 2 = [97, 98]
    ∧ lastIndexOf [97, 98, 98] [97, 98] npos .CaseSensitive = .ok 0 := by
  decide

theorem getD_map_lt (g : Nat → Nat) (s : Str) (i : Nat) (hi : i < s.length) :
    (s.map g).getD i 0 = g (s.getD i 0) := by
  rw [List.getD_eq_getElem _ _ (by simpa using hi), List.getD_eq_getElem _ _ hi,
    List.getElem_map]

theorem emit_keepSeparators (d : Nat) (L : List Str) (hne : L ≠ []) :
    emit true 1 d L = L.dropLast.map (fun e => e ++ [d]) ++ [L.getLast hne] := by
  induction L with
  | nil => exact absurd rfl hne
  | cons p r ih =>
    cases r with
    | nil => simp [emit]
    | cons q r2 =>
      rw [emit_cons _ _ _ _ _ (by simp), ih (by simp)]
      simp

theorem flatten_emit_keepSeparators (d : Nat) (L : List Str) :
    (emit true 1 d L).flatten = glue [d] L := by
  induction L with
  | nil => rfl
  | cons p r ih =>
    cases r with
    | nil => simp [emit, glue]
    | cons q r2 =>
      rw [emit_cons _ _ _ _ _ (by simp), List.flatten_append, ih]
      simp [glue]

theorem split_keepSeparators (s : Str) (d : Nat) (hs : s.length ≤ max_size) :
    split s d KeepSeparators = .ok (emit true 1 d (segments d s)) := by
  have h := splitLoop_eq s d KeepSeparators 1 (by omega) hs (size s + 2) 0 [] (by omega)
    (by simp only [size]; omega)
  have hk : decide (KeepSeparators &&& SkipEmpty = 0) = true := by decide
  have hadd : (if KeepSeparators &&& KeepSeparators ≠ 0 then 1 else 0) = 1 := by decide
  rw [hk] at h
  unfold split
  simp only [hadd]
  simpa using h

/-- C15: for every string `s` and delimiter byte `d`,
`s.split(d, KeepSeparators)` is `s.split(d, NoSplitFlag)` with `d` appended to
every element except the last; so every element but the last ends with `d`, and
the elements written one after the other give `s`. -/
theorem split_keepSeparators_spec (s : Str) (d : Nat) (hs : s.length ≤ max_size) :
    ∃ (L K : List Str) (hne : L ≠ []), split s d NoSplitFlag = .ok L
      ∧ split s d KeepSeparators = .ok K
      ∧ K = L.dropLast.map (fun e => e ++ [d]) ++ [L.getLast hne]
      ∧ (∀ e ∈ K.dropLast, e.getLast? = some d)
      ∧ K.flatten = s := by
  have hne := segments_ne_nil d s
  refine ⟨segments d s, emit true 1 d (segments d s), hne, split_noflag s d hs,
    split_keepSeparators s d hs, emit_keepSeparators d _ hne, ?_, ?_⟩
  · rw [emit_keepSeparators d _ hne, List.dropLast_concat]
    intro e he
    obtain ⟨x, _, rfl⟩ := List.mem_map.mp he
    simp
  · rw [flatten_emit_keepSeparators, glue_segments]

/-- Instance of `split_keepSeparators_spec`: the string `",a,,b,"` split on `','`. -/
theorem split_keepSeparators_spec_witness :
    ([44, 97, 44, 44, 98, 44] : Str).length ≤ max_size
    ∧ ∃ (L K : List Str) (hne : L ≠ []), split [44, 97, 44, 44, 98, 44] 44 NoSplitFlag = .ok L
      ∧ split [44, 97, 44, 44, 98, 44] 44 KeepSeparators = .ok K
      ∧ K = L.dropLast.map (fun e => e ++ [44]) ++ [L.getLast hne]
      ∧ (∀ e ∈ K.dropLast, e.getLast? = some 44)
      ∧ K.flatten = [44, 97, 44, 44, 98, 44] :=
  ⟨by decide, split_keepSeparators_spec [44, 97, 44, 44, 98, 44] 44 (by decide)⟩

theorem joinReserveSize_of_ne_nil (L : List Str) (sep : Str) (hne : L ≠ [])
    (hcount : L.length < 2 ^ 64) (hfit : (glue sep L).length ≤ max_size) :
    joinReserveSize L sep = (glue sep L).length := by
  have hj := join_of_ne_nil L sep hne hcount hfit
  unfold join at hj
  simp only [std_reserve, bind, Except.bind] at hj
  by_cases hle : joinReserveSize L sep ≤ max_size
  · obtain ⟨init, x, rfl⟩ : ∃ init x, L = init ++ [x] :=
      ⟨L.dropLast, L.getLast hne, (List.dropLast_append_getLast hne).symm⟩
    have hlen : (init ++ [x]).length = init.length + 1 := by simp
    have hsize0 : (max 0 (sub64 (init ++ [x]).length 1) * size sep) % 2 ^ 64
        < 2 ^ 64 := Nat.mod_lt _ (by norm_num)
    have hglue : (glue sep (init ++ [x])).length
        = init.length * sep.length + sumSizes (init ++ [x]) := by
      rw [glue_append_singleton, List.length_append, length_glueAll, sumSizes_append]
      omega
    have hsub : sub64 (init ++ [x]).length 1 = init.length := by
      rw [sub64_of_le (by omega) hcount, hlen]
      omega
    unfold joinReserveSize
    simp only []
    rw [join_size_loop _ _ hsize0 _ (le_refl _), List.take_length, hsub, Nat.zero_max,
      Nat.mod_add_mod, hglue]
    apply Nat.mod_eq_of_lt
    have := hglue ▸ hfit
    rw [max_size_eq] at this
    simp only [size]
    omega
  · rw [if_neg hle] at hj
    exact absurd hj (by simp)

/-- C20: for the empty list and the one-byte separator `","` the size that
`join` computes and passes to `reserve` is `2 ^ 64 - 1`, not 0, and the call
throws instead of returning the empty string. -/
theorem joinReserveSize_empty_list :
    joinReserveSize [] [44] = 2 ^ 64 - 1
    ∧ join [] [44] = .error .length_error
    ∧ (glue [44] []).length = 0 := by
  decide

/-! ## Formatted construction -/

/-- C16: `format` never truncates: when the formatting primitive stores at most
`capacity - 1` bytes of the full rendering `R` and returns its length (an
`int`), `format<StaticBufSize>` returns exactly `R`, whether `R` is shorter than
`StaticBufSize` or not. -/
theorem format_never_truncates (StaticBufSize : Nat) (R : Str) (hR : R.length < 2 ^ 31) :
    format StaticBufSize R = .ok R := by
  have hmod : (((R.length : Int) % 2 ^ 64).toNat) = R.length := by
    have h1 : ((R.length : Int) % 2 ^ 64) = (R.length : Int) := by
      apply Int.emod_eq_of_lt
      · exact Int.natCast_nonneg _
      · have : R.length < 2 ^ 64 := lt_trans hR (by norm_num)
        exact_mod_cast this
    rw [h1]
    exact Int.toNat_natCast _
  unfold format vsnprintf
  simp only [hR, if_true, hmod]
  by_cases hlt : R.length < StaticBufSize
  · rw [if_pos hlt]
    congr 1
    rw [List.take_take]
    apply List.take_of_length_le
    omega
  · rw [if_neg hlt]
    have hres : std_resize [] R.length = .ok (List.replicate R.length 0) := by
      unfold std_resize
      rw [if_pos (by rw [max_size_eq]; omega)]
      simp
    have hcap : (R.length + 1) % 2 ^ 64 = R.length + 1 :=
      Nat.mod_eq_of_lt (by omega)
    simp only [hres, bind, Except.bind, pure, Except.pure, hcap, Nat.add_sub_cancel,
      List.take_length]
    simp

/-- Instance of `format_never_truncates`: a rendering of exactly `StaticBufSize`
bytes, with `StaticBufSize = 4`. -/
theorem format_never_truncates_witness :
    ([97, 98, 99, 100] : Str).length < 2 ^ 31
    ∧ format 4 [97, 98, 99, 100] = .ok [97, 98, 99, 100] :=
  ⟨by decide, format_never_truncates 4 [97, 98, 99, 100] (by decide)⟩

/-! ## The 32-bit conversions -/

/-- C19: on a platform whose `long` has 64 bits, `toULong` of `"4294967296"`
sets the flag and returns 0, while the string denotes `2 ^ 32` (the value
`toULongLong` returns); `toLong` of `"2147483648"` sets the flag and returns
`-2147483648`. -/
theorem toULong_narrowing_unreported :
    toULong false 64 [52, 50, 57, 52, 57, 54, 55, 50, 57, 54] 10 = (0, true)
    ∧ toULongLong false [52, 50, 57, 52, 57, 54, 55, 50, 57, 54] 10 = (4294967296, true)
    ∧ toLong false 64 [50, 49, 52, 55, 52, 56, 51, 54, 52, 56] 10 = (-2147483648, true)
    ∧ toULongLong false [50, 49, 52, 55, 52, 56, 51, 54, 52, 56] 10 = (2147483648, true) := by
  decide

/-! ## Soundness of the case-insensitive search -/

theorem indexOfCharLoop_sound (s : Str) (ch : Nat) :
    ∀ (fuel i p : Nat), indexOfCharLoop s ch fuel i = .ok p → p ≠ npos →
      i ≤ p ∧ p < s.length ∧ tolower (s.getD p 0) = ch := by
  intro fuel
  induction fuel with
  | zero =>
    intro i p h
    rw [indexOfCharLoop] at h
    exact absurd h (by simp)
  | succ n ih =>
    intro i p h hne
    rw [indexOfCharLoop] at h
    by_cases hi : i < size s
    · rw [if_pos hi] at h
      by_cases hc : tolower (s.getD i 0) = ch
      · rw [if_pos hc] at h
        have hip : i = p := Except.ok.inj h
        subst hip
        exact ⟨le_refl _, hi, hc⟩
      · rw [if_neg hc] at h
        obtain ⟨a, b, c⟩ := ih (i + 1) p h hne
        exact ⟨by omega, b, c⟩
    · rw [if_neg hi] at h
      exact absurd (Except.ok.inj h).symm hne

theorem sub64_succ_add_one (i m : Nat) (hm : m ≤ i) (hi : i < 2 ^ 63) :
    (sub64 i (m + 1) + 1) % 2 ^ 64 = i - m := by
  unfold sub64
  have h1 : (m + 1) % 2 ^ 64 = m + 1 := Nat.mod_eq_of_lt (by omega)
  rw [h1]
  by_cases hlt : m + 1 ≤ i
  · have h2 : i + 2 ^ 64 - (m + 1) = (i - (m + 1)) + 2 ^ 64 := by omega
    rw [h2, Nat.add_mod_right, Nat.mod_eq_of_lt (by omega : i - (m + 1) < 2 ^ 64)]
    rw [Nat.mod_eq_of_lt (by omega)]
    omega
  · have hmi : m = i := by omega
    subst hmi
    have h2 : m + 2 ^ 64 - (m + 1) = 2 ^ 64 - 1 := by omega
    rw [h2]
    have h3 : (2 ^ 64 - 1) % 2 ^ 64 = 2 ^ 64 - 1 := Nat.mod_eq_of_lt (by omega)
    rw [h3]
    have h4 : 2 ^ 64 - 1 + 1 = 2 ^ 64 := by omega
    rw [h4, Nat.mod_self]
    omega

theorem indexOfLoop_sound (s lowered : Str) (hs : s.length < 2 ^ 63) :
    ∀ (fuel i matched p : Nat), matched ≤ i →
      (∀ k, k < matched → tolower (s.getD (i - matched + k) 0) = lowered.getD k 0) →
      indexOfLoop s lowered (size s) fuel i matched = .ok p → p ≠ npos →
      i - matched ≤ p ∧ p + lowered.length ≤ s.length
        ∧ ∀ k, k < lowered.length → tolower (s.getD (p + k) 0) = lowered.getD k 0 := by
  intro fuel
  induction fuel with
  | zero =>
    intro i matched p _ _ h
    rw [indexOfLoop] at h
    exact absurd h (by simp)
  | succ n ih =>
    intro i matched p hmi hinv h hne
    rw [indexOfLoop] at h
    by_cases hi : i < size s
    · have hi2 : i < s.length := hi
      rw [if_pos hi] at h
      by_cases hm : matched < lowered.length
      · have ha : charAt lowered matched = .ok (lowered.getD matched 0) := by
          unfold charAt
          rw [if_pos hm]
        have hb : charAt s i = .ok (s.getD i 0) := by
          unfold charAt
          rw [if_pos hi2]
        have hi1 : (i + 1) % 2 ^ 64 = i + 1 := Nat.mod_eq_of_lt (by omega)
        have hm1 : (matched + 1) % 2 ^ 64 = matched + 1 := Nat.mod_eq_of_lt (by omega)
        simp only [ha, hb, bind, Except.bind, hi1, hm1] at h
        by_cases hc : lowered.getD matched 0 ≠ tolower (s.getD i 0)
        · rw [if_pos hc] at h
          obtain ⟨a, b, c⟩ := ih (i + 1) 0 p (by omega) (by intro k hk; omega) h hne
          exact ⟨by omega, b, c⟩
        · rw [if_neg hc] at h
          have hc2 : tolower (s.getD i 0) = lowered.getD matched 0 := by
            by_contra hx
            exact hc (fun e => hx e.symm)
          have hinv2 : ∀ k, k < matched + 1 →
              tolower (s.getD (i + 1 - (matched + 1) + k) 0) = lowered.getD k 0 := by
            intro k hk
            have e1 : i + 1 - (matched + 1) = i - matched := by omega
            rw [e1]
            by_cases hkm : k < matched
            · exact hinv k hkm
            · have hk2 : k = matched := by omega
              have e2 : i - matched + k = i := by omega
              rw [e2, hk2]
              exact hc2
          by_cases hfull : matched + 1 = size lowered
          · rw [if_pos hfull] at h
            have hp : (sub64 i (matched + 1) + 1) % 2 ^ 64 = p := Except.ok.inj h
            rw [sub64_succ_add_one i matched hmi (by omega)] at hp
            have hlen : lowered.length = matched + 1 := hfull.symm
            refine ⟨by omega, by omega, ?_⟩
            intro k hk
            have := hinv2 k (by omega)
            have e1 : i + 1 - (matched + 1) + k = p + k := by omega
            rw [e1] at this
            exact this
          · rw [if_neg hfull] at h
            obtain ⟨a, b, c⟩ := ih (i + 1) (matched + 1) p (by omega) hinv2 h hne
            exact ⟨by omega, b, c⟩
      · have ha : charAt lowered matched = .error .out_of_range := by
          unfold charAt
          rw [if_neg hm]
        simp only [ha, bind, Except.bind] at h
        exact absurd h (by simp)
    · rw [if_neg hi] at h
      exact absurd (Except.ok.inj h).symm hne

/-- C21: soundness of the reset-on-mismatch matcher: for every haystack `h`,
non-empty needle `n` and start position, a position `p ≠ npos` returned by
`h.indexOf(n, from, CaseInsensitive)` satisfies `from ≤ p`,
`p + n.size() ≤ h.size()` and `tolower(h[p + k]) = tolower(n[k])` for every
`k < n.size()`. -/
theorem indexOf_caseInsensitive_sound (h n : Str) (i p : Nat) (hh : h.length ≤ max_size)
    (hn : n ≠ []) (hp : indexOf h n i .CaseInsensitive = .ok p) (hne : p ≠ npos) :
    i ≤ p ∧ p + n.length ≤ h.length
      ∧ ∀ k, k < n.length → tolower (h.getD (p + k) 0) = tolower (n.getD k 0) := by
  have hh2 : h.length < 2 ^ 63 := by rw [max_size_eq] at hh; omega
  have hcs : ¬ (CaseSensitivity.CaseInsensitive = CaseSensitivity.CaseSensitive) := by decide
  have he : isEmpty n = false := by
    cases n with
    | nil => exact absurd rfl hn
    | cons c cs => rfl
  unfold indexOf at hp
  simp only [he, Bool.false_eq_true, if_false] at hp
  by_cases h1 : size n = 1
  · have hlen : n.length = 1 := h1
    have hfirst : first n = .ok (n.getD 0 0) := by
      unfold first charAt
      rw [if_pos (by omega)]
    simp only [h1, if_true, hfirst, bind, Except.bind, indexOfChar, hcs, if_false] at hp
    obtain ⟨a, b, c⟩ := indexOfCharLoop_sound h _ _ i p hp hne
    refine ⟨a, by omega, ?_⟩
    intro k hk
    have hk0 : k = 0 := by omega
    rw [hk0, Nat.add_zero]
    exact c
  · simp only [h1, if_false, hcs] at hp
    obtain ⟨a, b, c⟩ := indexOfLoop_sound h (toLower n) hh2 _ i 0 p (Nat.zero_le _)
      (by intro k hk; omega) hp hne
    have hlen : (toLower n).length = n.length := by simp [toLower]
    rw [hlen] at b c
    refine ⟨by omega, b, ?_⟩
    intro k hk
    rw [c k hk]
    exact getD_map_lt tolower n k hk

/-- Instance of `indexOf_caseInsensitive_sound`: `"xAb".indexOf("aB")` is 1. -/
theorem indexOf_caseInsensitive_sound_witness :
    ([120, 65, 98] : Str).length ≤ max_size ∧ ([97, 66] : Str) ≠ []
    ∧ indexOf [120, 65, 98] [97, 66] 0 .CaseInsensitive = .ok 1 ∧ 1 ≠ npos
    ∧ (0 ≤ 1 ∧ 1 + ([97, 66] : Str).length ≤ ([120, 65, 98] : Str).length
      ∧ ∀ k, k < ([97, 66] : Str).length →
          tolower (([120, 65, 98] : Str).getD (1 + k) 0) = tolower (([97, 66] : Str).getD k 0)) :=
  ⟨by decide, by decide, by decide, by decide,
    indexOf_caseInsensitive_sound [120, 65, 98] [97, 66] 0 1 (by decide) (by decide)
      (by decide) (by decide)⟩

/-! ## Index safety of `chomp` -/

theorem chompLoop_ok (s chars : Str) :
    ∀ (fuel idx : Nat), idx < s.length → idx < fuel →
      ∃ r, chompLoop s chars fuel idx = .ok r ∧ r ≤ idx := by
  intro fuel
  induction fuel with
  | zero => intro idx _ h; omega
  | succ n ih =>
    intro idx hidx hfuel
    rw [chompLoop]
    by_cases h0 : idx > 0
    · have hat : charAt s (idx - 1) = .ok (s.getD (idx - 1) 0) := by
        unfold charAt
        rw [if_pos (by omega)]
      simp only [h0, if_true, hat, bind, Except.bind, containsChar, indexOfChar, pure,
        Except.pure]
      by_cases hmem : (std_find_char chars (s.getD (idx - 1) 0) 0 != npos) = true
      · rw [if_pos hmem]
        obtain ⟨r, hr, hle⟩ := ih (idx - 1) (by omega) (by omega)
        exact ⟨r, hr, by omega⟩
      · rw [if_neg hmem]
        exact ⟨idx, rfl, le_refl _⟩
    · rw [if_neg h0]
      exact ⟨idx, rfl, le_refl _⟩

theorem bind_ok {α β : Type} (a : α) (f : α → Except Fault β) :
    (Except.ok a >>= f) = f a := rfl

theorem chomp_ok_of_ne_nil (s chars : Str) (hne : s ≠ []) (hs : s.length ≤ max_size) :
    ∃ r, chomp s chars = .ok r := by
  have hpos : 0 < s.length := List.length_pos.mpr hne
  have hs2 : s.length < 2 ^ 63 := by rw [max_size_eq] at hs; omega
  have hidx0 : sub64 (size s) 1 = s.length - 1 :=
    sub64_of_le (by simp only [size]; omega) (by simp only [size]; omega)
  obtain ⟨r, hr, hle⟩ :=
    chompLoop_ok s chars (s.length - 1 + 1) (s.length - 1) (by omega) (by omega)
  have hres : std_resize s r = .ok (s.take r ++ List.replicate (r - s.length) 0) := by
    unfold std_resize
    rw [if_pos (by rw [max_size_eq]; omega)]
  unfold chomp
  simp only []
  rw [hidx0, hr, bind_ok]
  generalize sub64 (sub64 (size s) r) 1 = ret
  by_cases hret : ret ≠ 0
  · rw [if_pos hret, hres, bind_ok]
    exact ⟨_, rfl⟩
  · rw [if_neg hret]
    exact ⟨_, rfl⟩

/-- C22: on the empty string `chomp` evaluates `at(idx - 1)` with
`idx = size() - 1 = 2 ^ 64 - 1`, an index that is not below `size() = 0`, and
the call ends in the out-of-range fault instead of returning a count. -/
theorem chomp_empty_string_out_of_range :
    chomp [] [10] = .error .out_of_range
    ∧ chomp [] [] = .error .out_of_range
    ∧ sub64 (size ([] : Str)) 1 = 2 ^ 64 - 1
    ∧ charAt [] (2 ^ 64 - 1 - 1) = .error .out_of_range := by
  decide

end Rct
